import Mathlib

/-!
Shallow embedding, in Lean 4, of the log-parsing and tree-building core of
the drillog viewer (Go package `internal/viewer`, files `parser.go` and
`tree.go`), together with theorems settling the frozen claims about it.

Modelling conventions:
* Go strings are modelled as Lean `String` / `List Char`.  All the string
  scanning done by the source operates on ASCII delimiters (`=`, space,
  `"`, `\`), for which Go's byte indexing and Lean's character lists agree.
* `time.Time` is modelled as `Int`: the (signed) offset in nanoseconds from
  Go's zero time (January 1, year 1 UTC).  `t.IsZero()` becomes `t = 0`,
  `a.Before b` becomes `a < b`.  Go's `time.Time` can represent instants
  before the zero value (negative offsets), e.g. year-0 timestamps, which
  `time.Parse` accepts for RFC-3339 input.
* `time.Parse(time.RFC3339Nano, s)` is a Go standard-library function, not
  code of this repository; it is threaded through the definitions as an
  explicit parameter `pt : String → Option Int` (`none` models a parse
  error).  No claim below depends on its behaviour.
* `encoding/json.Unmarshal` into `map[string]any` is likewise threaded as a
  parameter `jdec : String → Option (List (String × JValue))` producing the
  decoded object as a key/value list (Go map keys are unique).  A decoded
  value is either a JSON string (`JValue.str`) or any other JSON value
  carried together with its `fmt.Sprintf("%v", v)` rendering
  (`JValue.nonstr`); the source never inspects a non-string value except to
  render it into the attribute map.
* Go's `map[string]T` is modelled as an association list with unique keys
  in insertion order; map assignment is `alistUpsert` (overwrite in place).
  Go randomizes map iteration order, so the pass that iterates over
  `tree.Spans` (`BuildTree`, pass 2) receives the iteration order as an
  explicit argument `ord`, constrained by theorem hypotheses to be a
  permutation of the keys.
* `sort.Slice` guarantees only that its output is a permutation of its
  input that is sorted for the comparator (it is documented as not stable).
  It is modelled by a stable insertion sort applied to the (arbitrary)
  map-iteration order; ranging over all iteration orders this yields
  exactly the sorted permutations, which is the set of outcomes the Go
  code admits.
* `bufio.Scanner` splits the input into lines; `Parse` here receives the
  list of lines directly.  I/O errors of the underlying reader are outside
  the model.
* `strings.TrimSpace` is modelled by trimming the four ASCII whitespace
  characters, which agrees with Go on all inputs relevant here.
-/

namespace Drillog

/-- Parsed log entry (Go struct `viewer.Entry`).  `time` is the `Int`
model of `time.Time` (0 = Go's zero time); `attrs` models
`map[string]string` as an association list with unique keys. -/
structure Entry where
  time : Int
  level : String
  message : String
  span : String
  parent : String
  attrs : List (String × String)
deriving DecidableEq

/-- Detected log format (Go type `viewer.Format`). -/
inductive Format where
  | unknown
  | text
  | json
deriving DecidableEq

/-- Result of parsing a whole input (Go struct `viewer.ParseResult`). -/
structure ParseResult where
  entries : List Entry
  format : Format
deriving DecidableEq

/-- Lookup in an association list modelling a Go map (`m[k]`). -/
def alistLookup {α : Type} : List (String × α) → String → Option α
  | [], _ => none
  | (k1, v) :: t, k => if k1 = k then some v else alistLookup t k

/-- Assignment into an association list modelling a Go map (`m[k] = v`):
overwrite at the existing key, else append. -/
def alistUpsert {α : Type} : List (String × α) → String → α → List (String × α)
  | [], k, v => [(k, v)]
  | (k1, v1) :: t, k, v => if k1 = k then (k, v) :: t else (k1, v1) :: alistUpsert t k v

/-- Update the value at a key of an association list, leaving the list
unchanged when the key is absent. -/
def alistModify {α : Type} : List (String × α) → String → (α → α) → List (String × α)
  | [], _, _ => []
  | (k1, v) :: t, k, f => if k1 = k then (k1, f v) :: t else (k1, v) :: alistModify t k f

/-- Keys of an association list, in order. -/
def alistKeys {α : Type} (m : List (String × α)) : List String := m.map Prod.fst

/-- Character-level model of `strings.TrimSpace` (ASCII whitespace). -/
def isSpaceChar (c : Char) : Bool :=
  c = ' ' || c = '\t' || c = '\n' || c = '\r'

/-- Trim leading and trailing whitespace from a string
(`strings.TrimSpace`). -/
def trimString (s : String) : String :=
  String.mk ((((s.data.dropWhile isSpaceChar).reverse).dropWhile isSpaceChar).reverse)

/-- Test whether a string starts with the given character (used for
`strings.HasPrefix(line, "\x7b")` with a one-byte pattern). -/
def headIs (s : String) (c : Char) : Bool :=
  match s.data with
  | [] => false
  | a :: _ => a = c

/-- Escape resolution for one escaped character inside a quoted value
(the `switch` in `unescapeQuoted`): `\n`, `\t`, `\r`, `\"`, `\\` map to
their control/literal characters, anything else maps to itself. -/
def escChar (d : Char) : Char :=
  if d = 'n' then '\n'
  else if d = 't' then '\t'
  else if d = 'r' then '\r'
  else if d = '"' then '"'
  else if d = '\\' then '\\'
  else d

/-- Loop body of Go `unescapeQuoted`: rewrite backslash escapes; a
trailing lone backslash is kept literally. -/
def unescLoop : List Char → List Char
  | [] => []
  | [c] => if c = '\\' then ['\\'] else [c]
  | c :: d :: ds =>
    if c = '\\' then escChar d :: unescLoop ds
    else c :: unescLoop (d :: ds)

/-- Go `unescapeQuoted`, including its fast path (`strings.Contains`
guard) for strings without a backslash. -/
def unescapeQuoted (s : List Char) : List Char :=
  if '\\' ∈ s then unescLoop s else s

/-- Key scan of `parseKeyValuePairs`: consume characters until `=`, a
space, or the end of line; returns the key and the unconsumed remainder
(starting at the delimiter, when there is one). -/
def takeKey : List Char → List Char × List Char
  | [] => ([], [])
  | c :: cs =>
    if c = '=' ∨ c = ' ' then ([], c :: cs)
    else
      let p := takeKey cs
      (c :: p.1, p.2)

/-- Quoted-value scan of `parseKeyValuePairs`: starting just after the
opening quote, consume up to the matching unquoted `"` (skipping `\X`
pairs), returning the raw slice (escapes unresolved) and the remainder
after the closing quote; an unterminated quote consumes to end of line. -/
def scanQuoted : List Char → List Char × List Char
  | [] => ([], [])
  | [c] => if c = '"' then ([], []) else ([c], [])
  | c :: d :: ds =>
    if c = '"' then ([], d :: ds)
    else if c = '\\' then
      let p := scanQuoted ds
      ('\\' :: d :: p.1, p.2)
    else
      let p := scanQuoted (d :: ds)
      (c :: p.1, p.2)

/-- Main loop of Go `parseKeyValuePairs`, scanning `key=value` tokens left
to right over the remaining characters and accumulating the result map.
Mirrors the index loop of the source: skip spaces; scan a key up to `=`,
space or end of line; a token without `=` is skipped; after `key=` at end
of line the value is empty and the loop stops; a value opening with `"` is
scanned by `scanQuoted` and unescaped, otherwise it runs to the next
space.  The first argument is an iteration budget used only to make the
recursion structural: every iteration of the Go loop advances the index by
at least one character (see `takeKey_snd_length`, `scanQuoted_snd_length`,
`dropWhile_length_le`), so a budget equal to the line length — which is
what `parseKeyValuePairs` passes — is never exhausted. -/
def kvLoop : Nat → List Char → List (String × String) → List (String × String)
  | 0, _, acc => acc
  | _ + 1, [], acc => acc
  | fuel + 1, c :: cs, acc =>
    if c = ' ' then kvLoop fuel cs acc
    else
      match takeKey (c :: cs) with
      | (_, []) => acc
      | (k, r0 :: rtail) =>
        if r0 = '=' then
          match rtail with
          | [] => alistUpsert acc (String.mk k) ""
          | v0 :: vs =>
            if v0 = '"' then
              let p := scanQuoted vs
              kvLoop fuel p.2 (alistUpsert acc (String.mk k) (String.mk (unescapeQuoted p.1)))
            else
              kvLoop fuel ((v0 :: vs).dropWhile (fun x => !(x = ' ')))
                (alistUpsert acc (String.mk k)
                  (String.mk ((v0 :: vs).takeWhile (fun x => !(x = ' ')))))
        else
          kvLoop fuel (r0 :: rtail) acc

/-- Go `parseKeyValuePairs`: parse one line of `key=value` pairs into a
map.  The Go function's only `return` is `return result, nil`, so the
error component is always absent; the `Except` mirrors the Go signature. -/
def parseKeyValuePairs (line : String) : Except String (List (String × String)) :=
  Except.ok (kvLoop line.data.length line.data [])

/-- Zero value of `viewer.Entry` (fields start at their Go zero values;
`parseTextLine` additionally allocates the empty attribute map). -/
def defaultEntry : Entry :=
  { time := 0, level := "", message := "", span := "", parent := "", attrs := [] }

/-- Application of one `key=value` pair to an entry: the `switch` body of
`parseTextLine`.  A `time` value is parsed with `pt` (the model of
`time.Parse(time.RFC3339Nano, ·)`) and ignored on failure; the five
reserved keys set their fields; anything else goes to `attrs`. -/
def applyPair (pt : String → Option Int) (en : Entry) (kv : String × String) : Entry :=
  if kv.1 = "time" then
    { en with time :=
        match pt kv.2 with
        | some t => t
        | none => en.time }
  else if kv.1 = "level" then { en with level := kv.2 }
  else if kv.1 = "msg" then { en with message := kv.2 }
  else if kv.1 = "span" then { en with span := kv.2 }
  else if kv.1 = "parent" then { en with parent := kv.2 }
  else { en with attrs := alistUpsert en.attrs kv.1 kv.2 }

/-- Go `parseTextLine`: tokenize the line and fold the pairs onto a fresh
entry.  Go iterates the pair map in unspecified order; since the keys are
unique and distinct keys write disjoint parts of the entry, any order
yields the same entry up to attribute-map contents, and the model uses the
map's insertion order. -/
def parseTextLine (pt : String → Option Int) (line : String) : Except String Entry :=
  match parseKeyValuePairs line with
  | Except.error e => Except.error e
  | Except.ok pairs => Except.ok (pairs.foldl (applyPair pt) defaultEntry)

/-- Decoded JSON value as seen by `parseJSONLine`: either a JSON string,
or any other JSON value carried with its `fmt.Sprintf("%v", ·)` rendering
(the source only ever type-asserts `.(string)` or renders the value). -/
inductive JValue where
  | str (s : String)
  | nonstr (rendered : String)
deriving DecidableEq

/-- Rendering used when a decoded value is placed into `attrs`
(`fmt.Sprintf("%v", v)`; for a Go string this is the string itself). -/
def renderJ : JValue → String
  | JValue.str s => s
  | JValue.nonstr r => r

/-- Reserved-key set of `parseJSONLine` (its `knownKeys` map). -/
def knownKey (k : String) : Bool :=
  k = "time" || k = "level" || k = "msg" || k = "span" || k = "parent"

/-- Field extraction of Go `parseJSONLine` from a decoded JSON object:
each reserved key contributes only when its value is a JSON string (the
`.(string)` type assertions); `time` is additionally parsed with `pt` and
ignored on failure; all non-reserved keys are rendered into `attrs`. -/
def parseJSONObject (pt : String → Option Int) (raw : List (String × JValue)) : Entry :=
  { time :=
      match alistLookup raw "time" with
      | some (JValue.str t) =>
        match pt t with
        | some x => x
        | none => 0
      | _ => 0
    level :=
      match alistLookup raw "level" with
      | some (JValue.str s) => s
      | _ => ""
    message :=
      match alistLookup raw "msg" with
      | some (JValue.str s) => s
      | _ => ""
    span :=
      match alistLookup raw "span" with
      | some (JValue.str s) => s
      | _ => ""
    parent :=
      match alistLookup raw "parent" with
      | some (JValue.str s) => s
      | _ => ""
    attrs := (raw.filter (fun kv => !(knownKey kv.1))).map (fun kv => (kv.1, renderJ kv.2)) }

/-- Go `parseJSONLine`: `json.Unmarshal` (the parameter `jdec`) followed by
field extraction; a line that fails to decode is a parse error. -/
def parseJSONLine (pt : String → Option Int) (jdec : String → Option (List (String × JValue)))
    (line : String) : Except String Entry :=
  match jdec line with
  | some raw => Except.ok (parseJSONObject pt raw)
  | none => Except.error "invalid JSON"

/-- Go `isValidEntry`: an entry must have a non-empty level and message. -/
def isValidEntry (e : Entry) : Bool :=
  !(e.level = "") && !(e.message = "")

/-- Dispatch on the detected format inside the `Parse` loop
(`if result.Format == FormatJSON ... else parseTextLine`). -/
def parseByFormat (pt : String → Option Int) (jdec : String → Option (List (String × JValue)))
    (fmt : Format) (line : String) : Except String Entry :=
  if fmt = Format.json then parseJSONLine pt jdec line else parseTextLine pt line

/-- Loop of Go `Parse` over the scanned lines, threading the
detected-format state: trim; skip blank lines; on the first non-blank line
decide the format from a leading brace; parse with the current format;
drop lines whose parse fails or whose entry fails `isValidEntry`.  Returns
the final format state and the accepted entries in input order. -/
def parseLoop (pt : String → Option Int) (jdec : String → Option (List (String × JValue))) :
    Format → List String → Format × List Entry
  | fmt, [] => (fmt, [])
  | fmt, l :: rest =>
    let s := trimString l
    if s = "" then parseLoop pt jdec fmt rest
    else
      let fmt1 := if fmt = Format.unknown then
          (if headIs s '\x7b' then Format.json else Format.text) else fmt
      let res :=
        match parseByFormat pt jdec fmt1 s with
        | Except.ok e => if isValidEntry e then some e else none
        | Except.error _ => none
      let rec1 := parseLoop pt jdec fmt1 rest
      (rec1.1, match res with
        | some e => e :: rec1.2
        | none => rec1.2)

/-- Go `Parse`: scan all lines, returning the accepted entries and the
detected format (the input is already split into lines; I/O errors of the
underlying reader are outside the model). -/
def Parse (pt : String → Option Int) (jdec : String → Option (List (String × JValue)))
    (lines : List String) : ParseResult :=
  let p := parseLoop pt jdec Format.unknown lines
  { entries := p.2, format := p.1 }

/-- Span node of the reconstructed tree (Go struct `viewer.Span`). -/
structure Span where
  id : String
  name : String
  parent : String
  children : List String
  startTime : Int
  duration : String
  entries : List Entry
deriving DecidableEq

/-- Reconstructed hierarchy (Go struct `viewer.Tree`): root span ids plus
the span map (association list with unique keys in creation order). -/
structure Tree where
  roots : List String
  spans : List (String × Span)
deriving DecidableEq

/-- Go `isStartedMessage`: the message equals `"started"` or ends with the
8-byte suffix `" started"` (byte slicing and character slicing agree here
because the suffix is ASCII). -/
def isStartedMessage (msg : String) : Bool :=
  if msg = "started" then true
  else if msg.data.length < 8 then false
  else decide (msg.data.drop (msg.data.length - 8) = " started".data)

/-- Go `isCompletedMessage`: the message equals `"completed"` or ends with
the 10-byte suffix `" completed"`. -/
def isCompletedMessage (msg : String) : Bool :=
  if msg = "completed" then true
  else if msg.data.length < 10 then false
  else decide (msg.data.drop (msg.data.length - 10) = " completed".data)

/-- Go `extractSpanName`: strip a trailing `" started"` when the message
is longer than 8 bytes and has that suffix, otherwise return the message
verbatim. -/
def extractSpanName (msg : String) : String :=
  if msg.data.length ≤ 8 then msg
  else if msg.data.drop (msg.data.length - 8) = " started".data then
    String.mk (msg.data.take (msg.data.length - 8))
  else msg

/-- Freshly created span record of pass 1 of `BuildTree` (`&Span{ID:
e.Span, Parent: e.Parent, Children: ..., Entries: ...}` with the remaining
fields at their Go zero values). -/
def freshSpan (e : Entry) : Span :=
  { id := e.span, name := "", parent := e.parent, children := [],
    startTime := 0, duration := "", entries := [] }

/-- Span record pass 1 works on for an entry: the registered one, or a
fresh one when the id is not yet in the map. -/
def getSpan (m : List (String × Span)) (e : Entry) : Span :=
  match alistLookup m e.span with
  | some sp => sp
  | none => freshSpan e

/-- Parent adoption of pass 1 (`if span.Parent == "" && e.Parent != ""`):
the first entry carrying a parent wins. -/
def updParent (sp : Span) (e : Entry) : Span :=
  if sp.parent = "" ∧ ¬ e.parent = "" then { sp with parent := e.parent } else sp

/-- Start-marker handling of pass 1: on a start marker the name is set
unconditionally and the start time only while still at the zero
sentinel. -/
def updStart (sp : Span) (e : Entry) : Span :=
  if isStartedMessage e.message then
    { sp with
      name := extractSpanName e.message,
      startTime := if sp.startTime = 0 then e.time else sp.startTime }
  else sp

/-- Completion-marker handling of pass 1: adopt a `duration` attribute
when the entry carries one. -/
def updDuration (sp : Span) (e : Entry) : Span :=
  if isCompletedMessage e.message then
    match alistLookup e.attrs "duration" with
    | some d => { sp with duration := d }
    | none => sp
  else sp

/-- Entry accumulation of pass 1 (`span.Entries = append(span.Entries,
e)`). -/
def appendEntry (sp : Span) (e : Entry) : Span :=
  { sp with entries := sp.entries ++ [e] }

/-- Pass 1 body of Go `BuildTree` for one entry: skip span-less entries;
get or create the span record; adopt the entry's parent when the span has
none yet; apply the start/completion marker updates; append the entry. -/
def pass1Step (m : List (String × Span)) (e : Entry) : List (String × Span) :=
  if e.span = "" then m
  else
    alistUpsert m e.span
      (appendEntry (updDuration (updStart (updParent (getSpan m e) e) e) e) e)

/-- Pass 1 of Go `BuildTree`: group the entries into the span map. -/
def pass1 (entries : List Entry) : List (String × Span) :=
  entries.foldl pass1Step []

/-- Pass 2 body of Go `BuildTree` for one span id drawn from the map
iteration: a span with empty parent is appended to the roots; a span whose
parent resolves is appended to that parent's children; an orphan is
promoted to the roots.  Ids absent from the map are skipped (under the
permutation hypotheses of the theorems this never happens). -/
def pass2Step (t : Tree) (id1 : String) : Tree :=
  match alistLookup t.spans id1 with
  | none => t
  | some sp =>
    if sp.parent = "" then { t with roots := t.roots ++ [id1] }
    else
      match alistLookup t.spans sp.parent with
      | some _ =>
        { t with
          spans := alistModify t.spans sp.parent
            (fun p => { p with children := p.children ++ [id1] }) }
      | none => { t with roots := t.roots ++ [id1] }

/-- Pass 2 of Go `BuildTree` over a given map-iteration order. -/
def pass2 (m : List (String × Span)) (ord : List String) : Tree :=
  ord.foldl pass2Step { roots := [], spans := m }

/-- Stable insertion of an element into a sorted list for a boolean
comparator (the element lands before the first list element it compares
`le` to). -/
def orderedInsertB {α : Type} (le : α → α → Bool) (a : α) : List α → List α
  | [] => [a]
  | b :: l => if le a b then a :: b :: l else b :: orderedInsertB le a l

/-- Stable insertion sort for a boolean comparator.  Together with the
arbitrary iteration order fed to pass 2, this captures exactly the sorted
permutations that Go's unstable `sort.Slice` may produce. -/
def insertionSortB {α : Type} (le : α → α → Bool) : List α → List α
  | [] => []
  | b :: l => orderedInsertB le b (insertionSortB le l)

/-- Start time of the span registered under an id (the `t.Spans[...]
.StartTime` reads of `sortByStartTime`; all ids looked up there are keys
of the map, so the default is never taken). -/
def timeOf (m : List (String × Span)) (id1 : String) : Int :=
  match alistLookup m id1 with
  | some sp => sp.startTime
  | none => 0

/-- Go `sortByStartTime`: sort the roots by start time, and the children
of every span with more than one child likewise.  The comparator
`si.StartTime.Before(sj.StartTime)` of `sort.Slice` admits exactly the
permutations that are `≤`-sorted on start times; see the module comment
for how the stable model sort plus the arbitrary iteration order covers
them. -/
def sortByStartTime (t : Tree) : Tree :=
  let le := fun a b => decide (timeOf t.spans a ≤ timeOf t.spans b)
  { roots := insertionSortB le t.roots
    spans := t.spans.map (fun kv =>
      (kv.1,
        if 1 < kv.2.children.length then
          { kv.2 with children := insertionSortB le kv.2.children }
        else kv.2)) }

/-- Go `BuildTree`: group entries into spans (pass 1), link children and
collect roots (pass 2, over the given map-iteration order), then sort.
An empty entry list short-circuits to the empty tree as in the source. -/
def BuildTree (entries : List Entry) (ord : List String) : Tree :=
  if entries.isEmpty then { roots := [], spans := [] }
  else sortByStartTime (pass2 (pass1 entries) ord)

/-- Name of the span registered under an id (empty when absent). -/
def nameOfT (t : Tree) (s : String) : String :=
  match alistLookup t.spans s with
  | some sp => sp.name
  | none => ""

/-- Duration of the span registered under an id (empty when absent). -/
def durationOfT (t : Tree) (s : String) : String :=
  match alistLookup t.spans s with
  | some sp => sp.duration
  | none => ""

/-- Children of the span registered under an id (empty when absent). -/
def childrenOfT (t : Tree) (s : String) : List String :=
  match alistLookup t.spans s with
  | some sp => sp.children
  | none => []

/-- Parent of the span registered under an id (empty when absent). -/
def parentOfT (t : Tree) (s : String) : String :=
  match alistLookup t.spans s with
  | some sp => sp.parent
  | none => ""

/-- Entries of the span registered under an id in a span map. -/
def entriesOfM (m : List (String × Span)) (s : String) : List Entry :=
  match alistLookup m s with
  | some sp => sp.entries
  | none => []

/-- Children of the span registered under an id in a span map. -/
def childrenOfM (m : List (String × Span)) (s : String) : List String :=
  match alistLookup m s with
  | some sp => sp.children
  | none => []

/-- Name of the span registered under an id in a span map. -/
def nameOfM (m : List (String × Span)) (s : String) : String :=
  match alistLookup m s with
  | some sp => sp.name
  | none => ""

/-- Parent of the span registered under an id in a span map. -/
def parentOfM (m : List (String × Span)) (s : String) : String :=
  match alistLookup m s with
  | some sp => sp.parent
  | none => ""

/-- Total number of grouped entries of a span map. -/
def sumEntriesLen (m : List (String × Span)) : Nat :=
  (m.map (fun kv => kv.2.entries.length)).sum

/-- Span record with its children erased: pass 2 only ever appends to
children, so all other observations of the span map are invariant under
it. -/
def scrub (sp : Span) : Span := { sp with children := [] }

/-- Pass-2 root condition for an id, read off the pass-1 map: the id is
registered and its span either has no parent or an unresolvable one. -/
def rootTest (m : List (String × Span)) (id1 : String) : Bool :=
  match alistLookup m id1 with
  | some sp => decide (sp.parent = "") || (alistLookup m sp.parent).isNone
  | none => false

/-- Scrub-equality of two span maps: same keys, and the same span record
up to children at every key. -/
def ScrubEq (a b : List (String × Span)) : Prop :=
  ∀ s, (alistLookup a s).map scrub = (alistLookup b s).map scrub

/-- Number of occurrences of an id among the children lists of a span
map. -/
def sumChildCount (m : List (String × Span)) (s : String) : Nat :=
  (m.map (fun kv => kv.2.children.count s)).sum

/-- Number of places an id occurs in a tree: in the roots plus in all
children lists. -/
def occCount (t : Tree) (s : String) : Nat :=
  t.roots.count s + sumChildCount t.spans s

/-- Children update applied to every span by `sortByStartTime`. -/
def sortChild (le : String → String → Bool) (sp : Span) : Span :=
  if 1 < sp.children.length then
    { sp with children := insertionSortB le sp.children }
  else sp

/-- Concrete four-line text input of the end-to-end scenario (claim C1 /
spec scenario 1). -/
def c1Lines : List String :=
  [ "time=2025-12-04T10:00:00Z level=INFO msg=\"main started\" span=aaa"
  , "time=2025-12-04T10:00:01Z level=INFO msg=\"child started\" span=bbb parent=aaa"
  , "time=2025-12-04T10:00:02Z level=INFO msg=\"child completed\" duration=10ms span=bbb parent=aaa"
  , "time=2025-12-04T10:00:03Z level=INFO msg=\"main completed\" duration=50ms span=aaa" ]

/-- Timestamp parser instance used by witnesses: every parse fails (the
claims hold regardless of the timestamp parser). -/
def ptNone : String → Option Int := fun _ => none

/-- JSON decoder instance used by witnesses on text-format inputs. -/
def jdecNone : String → Option (List (String × JValue)) := fun _ => none

/-- Entry with a span id, used by witnesses. -/
def c2wEntryA : Entry :=
  { time := 0, level := "I", message := "m", span := "s", parent := "", attrs := [] }

/-- Entry without a span id, used by witnesses. -/
def c2wEntryB : Entry :=
  { time := 0, level := "I", message := "n", span := "", parent := "", attrs := [] }

/-- Format detection written as the specification states it: the format is
decided by the first line that is non-blank after trimming — JSON when it
starts with a brace, text otherwise — and is `unknown` only when every
line is blank. -/
def detectFormat : List String → Format
  | [] => Format.unknown
  | l :: rest =>
    if trimString l = "" then detectFormat rest
    else if headIs (trimString l) '\x7b' then Format.json else Format.text

/-- Per-line acceptance under a fixed format: blank lines, lines that fail
to parse, and lines whose entry fails the validity gate yield nothing. -/
def lineGate (pt : String → Option Int) (jdec : String → Option (List (String × JValue)))
    (fmt : Format) (l : String) : Option Entry :=
  if trimString l = "" then none
  else
    match parseByFormat pt jdec fmt (trimString l) with
    | Except.ok e => if isValidEntry e then some e else none
    | Except.error _ => none

/-- Quoted-value scan as the specification words it: one pass from just
after the opening quote to the matching unquoted closing quote, applying
the escape map to each `\X` on the way (an unterminated quote consumes to
end of line).  The reference tokenizer instead first slices to the closing
quote and unescapes afterwards; claim C8 states the two agree. -/
def specQuoted : List Char → List Char × List Char
  | [] => ([], [])
  | [c] => if c = '"' then ([], []) else ([c], [])
  | c :: d :: ds =>
    if c = '"' then ([], d :: ds)
    else if c = '\\' then
      let p := specQuoted ds
      (escChar d :: p.1, p.2)
    else
      let p := specQuoted (d :: ds)
      (c :: p.1, p.2)

/-- Concrete decoded JSON object with every reserved key bound to a
non-string value, used by the C10 witness. -/
def c10raw : List (String × JValue) :=
  [("time", JValue.nonstr "1"), ("level", JValue.nonstr "5"), ("msg", JValue.nonstr "2"),
   ("span", JValue.nonstr "3"), ("parent", JValue.nonstr "4"), ("x", JValue.str "y")]

/-- JSON decoder instance returning `c10raw` for every line. -/
def jdecC10 : String → Option (List (String × JValue)) := fun _ => some c10raw

/-- Name derivation exactly as claim C3 words it: the message with a
trailing `" started"` suffix stripped whenever the suffix is present
(including the 8-byte message `" started"` itself), verbatim otherwise. -/
def claimStripName (msg : String) : String :=
  if 8 ≤ msg.data.length ∧ msg.data.drop (msg.data.length - 8) = " started".data
  then String.mk (msg.data.take (msg.data.length - 8)) else msg

/-- Span name predicted by claim C3: derived from the first start-marker
entry of the span via `claimStripName` (first marker wins). -/
def claimFirstStartName (es : List Entry) (s : String) : String :=
  match (es.filter (fun e => decide (e.span = s) && isStartedMessage e.message)).head? with
  | some e => claimStripName e.message
  | none => ""

/-- Name derivation as the amended claim words it: strip the trailing
`" started"` only when the message is strictly longer than 8 bytes (the
8-byte message `" started"` and the bare `"started"` stay verbatim). -/
def amendedStripName (msg : String) : String :=
  if 8 < msg.data.length ∧ msg.data.drop (msg.data.length - 8) = " started".data
  then String.mk (msg.data.take (msg.data.length - 8)) else msg

/-- Entry list refuting claim C3: one span with two distinct start
markers, the second being the 8-byte message `" started"`. -/
def c3cexEntries : List Entry :=
  [ { time := 0, level := "I", message := "foo started", span := "X", parent := "", attrs := [] }
  , { time := 0, level := "I", message := " started", span := "X", parent := "", attrs := [] } ]

/-- Single-start-marker entry list for the C3 witness. -/
def c3wEntries : List Entry :=
  [ { time := 0, level := "I", message := "boot started", span := "W", parent := "", attrs := [] } ]

/-- Entry list refuting claim C4: a single entry declaring its own span id
as its parent. -/
def c4cexEntries : List Entry :=
  [ { time := 0, level := "I", message := "m", span := "X", parent := "X", attrs := [] } ]

/-- Self-parenting entry list for the C4 witness. -/
def c4wEntries : List Entry :=
  [ { time := 0, level := "I", message := "m", span := "Y", parent := "Y", attrs := [] } ]

/-- Entry list refuting the sentinel part of claim C6: span `a` starts at
time −5 (before Go's zero time, e.g. a year-0 RFC-3339 timestamp), span
`b` has no start marker and keeps the absent-value sentinel. -/
def c6cexEntriesA : List Entry :=
  [ { time := -5, level := "I", message := "a started", span := "a", parent := "", attrs := [] }
  , { time := 99, level := "I", message := "hello", span := "b", parent := "", attrs := [] } ]

/-- Entry list refuting the stability part of claim C6: two root spans
with equal start times, discovered in the order `x`, `y`. -/
def c6cexEntriesB : List Entry :=
  [ { time := 7, level := "I", message := "x started", span := "x", parent := "", attrs := [] }
  , { time := 7, level := "I", message := "y started", span := "y", parent := "", attrs := [] } ]

/-- Iterated parent lookup in a tree: `chainF t s k` follows `k` parent
links starting from span id `s`. -/
def chainF (t : Tree) (s : String) : Nat → String
  | 0 => s
  | k + 1 => parentOfT t (chainF t s k)

/-- Forest property exactly as claim C5 words it: from every span,
following parent links reaches a root within `|spans|` steps or the span
is itself a declared root; and every span id appears in exactly one
place — in the roots or in exactly one OTHER span's children list. -/
def claimForest (t : Tree) : Prop :=
  ∀ s ∈ alistKeys t.spans,
    ((∃ k ∈ List.range (t.spans.length + 1), chainF t s k ∈ t.roots) ∨ s ∈ t.roots) ∧
    (List.count s t.roots +
      ((t.spans.filter (fun kv => !(kv.1 = s))).map (fun kv => kv.2.children.count s)).sum = 1)

/-- Entry list refuting claim C5: a single self-parenting entry. -/
def c5cexEntries : List Entry :=
  [ { time := 0, level := "I", message := "m", span := "X", parent := "X", attrs := [] } ]

/-- Single-span entry list for the C5 witness. -/
def c5wEntries : List Entry :=
  [ { time := 0, level := "I", message := "m", span := "Z", parent := "", attrs := [] } ]

variable {α : Type}

theorem takeKey_snd_length : ∀ cs : List Char, (takeKey cs).2.length ≤ cs.length := by
  intro cs
  induction cs with
  | nil => simp [takeKey]
  | cons c cs ih =>
    simp only [takeKey]
    split
    · simp
    · simpa using Nat.le_succ_of_le ih

theorem scanQuoted_snd_length : ∀ cs : List Char, (scanQuoted cs).2.length ≤ cs.length := by
  intro cs
  induction cs using scanQuoted.induct <;> simp_all [scanQuoted] <;> omega

theorem dropWhile_length_le {α : Type} (p : α → Bool) :
    ∀ l : List α, (l.dropWhile p).length ≤ l.length := by
  intro l
  induction l with
  | nil => simp
  | cons a t ih =>
    simp only [List.dropWhile]
    split
    · exact Nat.le_succ_of_le ih
    · simp

theorem alistLookup_upsert_self (m : List (String × α)) (k : String) (v : α) :
    alistLookup (alistUpsert m k v) k = some v := by
  induction m with
  | nil => simp [alistUpsert, alistLookup]
  | cons kv t ih =>
    obtain ⟨k1, v1⟩ := kv
    by_cases h : k1 = k
    · simp [alistUpsert, alistLookup, h]
    · simp [alistUpsert, alistLookup, h, ih]

theorem alistLookup_upsert_ne (m : List (String × α)) (k k1 : String) (v : α) (h : ¬ k = k1) :
    alistLookup (alistUpsert m k v) k1 = alistLookup m k1 := by
  induction m with
  | nil => simp [alistUpsert, alistLookup, h]
  | cons kv t ih =>
    obtain ⟨k2, v2⟩ := kv
    by_cases h2 : k2 = k
    · subst h2
      simp [alistUpsert, alistLookup, h]
    · simp only [alistUpsert, if_neg h2]
      by_cases h3 : k2 = k1 <;> simp [alistLookup, h3, ih]

theorem alistKeys_upsert (m : List (String × α)) (k : String) (v : α) :
    alistKeys (alistUpsert m k v) =
      if k ∈ alistKeys m then alistKeys m else alistKeys m ++ [k] := by
  induction m with
  | nil => simp [alistUpsert, alistKeys]
  | cons kv t ih =>
    obtain ⟨k1, v1⟩ := kv
    by_cases h1 : k1 = k
    · subst h1
      simp [alistUpsert, alistKeys]
    · simp only [alistUpsert, if_neg h1, alistKeys, List.map_cons] at ih ⊢
      rw [ih]
      have hne : (k ∈ k1 :: List.map Prod.fst t) ↔ (k ∈ List.map Prod.fst t) := by
        simp
        intro h
        exact absurd h.symm h1
      by_cases h2 : k ∈ List.map Prod.fst t
      · simp [h2, hne]
      · simp [h2, hne]

theorem alistKeys_nodup_upsert (m : List (String × α)) (k : String) (v : α)
    (h : (alistKeys m).Nodup) : (alistKeys (alistUpsert m k v)).Nodup := by
  rw [alistKeys_upsert]
  by_cases h2 : k ∈ alistKeys m
  · simpa [h2] using h
  · simp only [h2, if_neg]
    refine List.Nodup.append h (by simp) ?_
    intro b hb hbk
    simp at hbk
    subst hbk
    exact h2 hb

theorem alistLookup_isSome_iff_mem (m : List (String × α)) (k : String) :
    (alistLookup m k).isSome = true ↔ k ∈ alistKeys m := by
  induction m with
  | nil => simp [alistLookup, alistKeys]
  | cons kv t ih =>
    obtain ⟨k1, v1⟩ := kv
    by_cases h : k1 = k
    · subst h
      simp [alistLookup, alistKeys]
    · simp [alistLookup, alistKeys, h, ih]
      intro hk
      exact absurd hk.symm h

theorem alistLookup_none_iff_notmem (m : List (String × α)) (k : String) :
    alistLookup m k = none ↔ ¬ k ∈ alistKeys m := by
  rw [← alistLookup_isSome_iff_mem]
  cases alistLookup m k <;> simp

theorem alistLookup_modify (m : List (String × α)) (k k1 : String) (f : α → α) :
    alistLookup (alistModify m k f) k1 =
      if k = k1 then (alistLookup m k1).map f else alistLookup m k1 := by
  induction m with
  | nil => simp [alistModify, alistLookup]
  | cons kv t ih =>
    obtain ⟨k2, v2⟩ := kv
    by_cases h2 : k2 = k
    · subst h2
      by_cases h1 : k2 = k1
      · subst h1
        simp [alistModify, alistLookup]
      · simp [alistModify, alistLookup, h1]
    · by_cases h1 : k2 = k1
      · subst h1
        have hne : ¬ k = k2 := fun h => h2 h.symm
        simp [alistModify, alistLookup, h2, hne]
      · simp [alistModify, alistLookup, h1, h2, ih]

theorem alistKeys_modify (m : List (String × α)) (k : String) (f : α → α) :
    alistKeys (alistModify m k f) = alistKeys m := by
  induction m with
  | nil => simp [alistModify]
  | cons kv t ih =>
    obtain ⟨k2, v2⟩ := kv
    by_cases h : k2 = k <;> simp [alistModify, alistKeys, h] <;>
      simpa [alistKeys] using ih

theorem alistLookup_mapVal (m : List (String × α)) (g : α → α) (k : String) :
    alistLookup (m.map (fun kv => (kv.1, g kv.2))) k = (alistLookup m k).map g := by
  induction m with
  | nil => simp [alistLookup]
  | cons kv t ih =>
    obtain ⟨k1, v1⟩ := kv
    by_cases h : k1 = k <;> simp [alistLookup, h, ih]

theorem alistKeys_mapVal (m : List (String × α)) (g : α → α) :
    alistKeys (m.map (fun kv => (kv.1, g kv.2))) = alistKeys m := by
  induction m with
  | nil => simp [alistKeys]
  | cons kv t ih => simpa [alistKeys] using ih

theorem alistLookup_of_mem_nodup (m : List (String × α)) (kv : String × α)
    (hmem : kv ∈ m) (hnd : (alistKeys m).Nodup) : alistLookup m kv.1 = some kv.2 := by
  induction m with
  | nil => simp at hmem
  | cons kv1 t ih =>
    obtain ⟨k1, v1⟩ := kv1
    rw [alistKeys, List.map_cons, List.nodup_cons] at hnd
    rcases List.mem_cons.mp hmem with h | h
    · subst h
      simp [alistLookup]
    · have hk : kv.1 ∈ alistKeys t := by
        rw [alistKeys, List.mem_map]
        exact ⟨kv, h, rfl⟩
      have hne : ¬ k1 = kv.1 := by
        intro he
        rw [he] at hnd
        exact hnd.1 hk
      simp [alistLookup, hne]
      exact ih h hnd.2

theorem mem_of_alistLookup_eq (m : List (String × α)) (k : String) (v : α)
    (h : alistLookup m k = some v) : (k, v) ∈ m := by
  induction m with
  | nil => simp [alistLookup] at h
  | cons kv t ih =>
    obtain ⟨k1, v1⟩ := kv
    by_cases h1 : k1 = k
    · subst h1
      simp [alistLookup] at h
      subst h
      simp
    · simp [alistLookup, h1] at h
      exact List.mem_cons_of_mem _ (ih h)

theorem alistFilter_key_length (m : List (String × α)) (s : String) :
    (m.filter (fun kv => decide (kv.1 = s))).length = (alistKeys m).count s := by
  induction m with
  | nil => simp [alistKeys]
  | cons kv t ih =>
    obtain ⟨k1, v1⟩ := kv
    by_cases h : k1 = s <;>
      simp [List.filter, alistKeys, h, List.count_cons, ih]

theorem orderedInsertB_perm (le : α → α → Bool) (a : α) :
    ∀ l : List α, (orderedInsertB le a l).Perm (a :: l) := by
  intro l
  induction l with
  | nil => simp [orderedInsertB]
  | cons b t ih =>
    simp only [orderedInsertB]
    split
    · exact List.Perm.refl _
    · exact (List.Perm.cons b ih).trans (List.Perm.swap a b t)

theorem insertionSortB_perm (le : α → α → Bool) :
    ∀ l : List α, (insertionSortB le l).Perm l := by
  intro l
  induction l with
  | nil => simp [insertionSortB]
  | cons b t ih =>
    simp only [insertionSortB]
    exact ((orderedInsertB_perm le b _).trans (List.Perm.cons _ ih))

theorem orderedInsertB_pairwise (le : α → α → Bool)
    (htot : ∀ a b, le a b = true ∨ le b a = true)
    (htrans : ∀ a b c, le a b = true → le b c = true → le a c = true)
    (a : α) (l : List α) (hl : l.Pairwise (fun x y => le x y = true)) :
    (orderedInsertB le a l).Pairwise (fun x y => le x y = true) := by
  induction l with
  | nil => simp [orderedInsertB]
  | cons b t ih =>
    rw [List.pairwise_cons] at hl
    simp only [orderedInsertB]
    by_cases hab : le a b = true
    · rw [if_pos hab, List.pairwise_cons]
      constructor
      · intro y hy
        rcases List.mem_cons.mp hy with h | h
        · subst h
          exact hab
        · exact htrans a b y hab (hl.1 y h)
      · exact List.pairwise_cons.mpr hl
    · rw [if_neg hab, List.pairwise_cons]
      constructor
      · intro y hy
        have hmem : y = a ∨ y ∈ t := by
          simpa using (orderedInsertB_perm le a t).mem_iff.mp hy
        rcases hmem with h | h
        · have hba : le b a = true := Or.resolve_left (htot a b) hab
          simpa [h] using hba
        · exact hl.1 y h
      · exact ih hl.2

theorem insertionSortB_pairwise (le : α → α → Bool)
    (htot : ∀ a b, le a b = true ∨ le b a = true)
    (htrans : ∀ a b c, le a b = true → le b c = true → le a c = true) :
    ∀ l : List α, (insertionSortB le l).Pairwise (fun x y => le x y = true) := by
  intro l
  induction l with
  | nil => simp [insertionSortB]
  | cons b t ih =>
    simp only [insertionSortB]
    exact orderedInsertB_pairwise le htot htrans b _ ih

theorem pass1Step_skip (m : List (String × Span)) (e : Entry) (h : e.span = "") :
    pass1Step m e = m := by
  simp [pass1Step, h]

theorem updParent_entries (sp : Span) (e : Entry) : (updParent sp e).entries = sp.entries := by
  unfold updParent
  split <;> rfl

theorem updStart_entries (sp : Span) (e : Entry) : (updStart sp e).entries = sp.entries := by
  unfold updStart
  split <;> rfl

theorem updDuration_entries (sp : Span) (e : Entry) :
    (updDuration sp e).entries = sp.entries := by
  unfold updDuration
  split
  · split <;> rfl
  · rfl

theorem updParent_children (sp : Span) (e : Entry) : (updParent sp e).children = sp.children := by
  unfold updParent
  split <;> rfl

theorem updStart_children (sp : Span) (e : Entry) : (updStart sp e).children = sp.children := by
  unfold updStart
  split <;> rfl

theorem updDuration_children (sp : Span) (e : Entry) :
    (updDuration sp e).children = sp.children := by
  unfold updDuration
  split
  · split <;> rfl
  · rfl

theorem updParent_name (sp : Span) (e : Entry) : (updParent sp e).name = sp.name := by
  unfold updParent
  split <;> rfl

theorem updStart_name (sp : Span) (e : Entry) :
    (updStart sp e).name =
      if isStartedMessage e.message then extractSpanName e.message else sp.name := by
  unfold updStart
  split <;> rfl

theorem updDuration_name (sp : Span) (e : Entry) : (updDuration sp e).name = sp.name := by
  unfold updDuration
  split
  · split <;> rfl
  · rfl

theorem stepSpan_entries (m : List (String × Span)) (e : Entry) :
    (appendEntry (updDuration (updStart (updParent (getSpan m e) e) e) e) e).entries =
      entriesOfM m e.span ++ [e] := by
  rw [appendEntry, updDuration_entries, updStart_entries, updParent_entries]
  unfold getSpan entriesOfM
  cases alistLookup m e.span <;> simp [freshSpan]

theorem stepSpan_children (m : List (String × Span)) (e : Entry) :
    (appendEntry (updDuration (updStart (updParent (getSpan m e) e) e) e) e).children =
      childrenOfM m e.span := by
  show (updDuration (updStart (updParent (getSpan m e) e) e) e).children = _
  rw [updDuration_children, updStart_children, updParent_children]
  unfold getSpan childrenOfM
  cases alistLookup m e.span <;> simp [freshSpan]

theorem stepSpan_name (m : List (String × Span)) (e : Entry) :
    (appendEntry (updDuration (updStart (updParent (getSpan m e) e) e) e) e).name =
      if isStartedMessage e.message then extractSpanName e.message else nameOfM m e.span := by
  show (updDuration (updStart (updParent (getSpan m e) e) e) e).name = _
  rw [updDuration_name, updStart_name, updParent_name]
  unfold getSpan nameOfM
  cases alistLookup m e.span <;> simp [freshSpan]

theorem pass1Step_entriesOf (m : List (String × Span)) (e : Entry) (s : String)
    (h : ¬ e.span = "") :
    entriesOfM (pass1Step m e) s =
      if e.span = s then entriesOfM m s ++ [e] else entriesOfM m s := by
  by_cases hs : e.span = s
  · subst hs
    rw [if_pos rfl]
    unfold pass1Step
    rw [if_neg h]
    unfold entriesOfM
    rw [alistLookup_upsert_self]
    exact stepSpan_entries m e
  · rw [if_neg hs]
    unfold pass1Step
    rw [if_neg h]
    unfold entriesOfM
    rw [alistLookup_upsert_ne _ _ _ _ hs]

theorem pass1Step_childrenOf (m : List (String × Span)) (e : Entry) (s : String) :
    childrenOfM (pass1Step m e) s = childrenOfM m s := by
  by_cases h : e.span = ""
  · unfold pass1Step
    rw [if_pos h]
  · by_cases hs : e.span = s
    · subst hs
      unfold pass1Step
      rw [if_neg h]
      unfold childrenOfM
      rw [alistLookup_upsert_self]
      exact stepSpan_children m e
    · unfold pass1Step
      rw [if_neg h]
      unfold childrenOfM
      rw [alistLookup_upsert_ne _ _ _ _ hs]

theorem pass1Step_nameOf (m : List (String × Span)) (e : Entry) (s : String)
    (h : ¬ e.span = "") :
    nameOfM (pass1Step m e) s =
      if e.span = s ∧ isStartedMessage e.message then extractSpanName e.message
      else nameOfM m s := by
  by_cases hs : e.span = s
  · subst hs
    unfold pass1Step
    rw [if_neg h]
    unfold nameOfM
    rw [alistLookup_upsert_self]
    show (appendEntry (updDuration (updStart (updParent (getSpan m e) e) e) e) e).name = _
    rw [stepSpan_name m e]
    by_cases hst : isStartedMessage e.message <;> simp [hst, nameOfM]
  · unfold pass1Step
    rw [if_neg h]
    rw [if_neg (fun hx => hs hx.1)]
    unfold nameOfM
    rw [alistLookup_upsert_ne _ _ _ _ hs]

theorem pass1Step_keys (m : List (String × Span)) (e : Entry) :
    alistKeys (pass1Step m e) =
      if e.span = "" ∨ e.span ∈ alistKeys m then alistKeys m
      else alistKeys m ++ [e.span] := by
  by_cases h : e.span = ""
  · unfold pass1Step
    rw [if_pos h, if_pos (Or.inl h)]
  · unfold pass1Step
    rw [if_neg h, alistKeys_upsert]
    by_cases hm : e.span ∈ alistKeys m
    · rw [if_pos hm, if_pos (Or.inr hm)]
    · rw [if_neg hm, if_neg (by push_neg; exact ⟨h, hm⟩)]

theorem pass1_fold_entriesOf (s : String) (hs : ¬ s = "") :
    ∀ (es : List Entry) (m : List (String × Span)),
      entriesOfM (List.foldl pass1Step m es) s =
        entriesOfM m s ++ es.filter (fun e => decide (e.span = s)) := by
  intro es
  induction es with
  | nil => intro m; simp
  | cons e es ih =>
    intro m
    rw [List.foldl_cons, ih]
    by_cases h : e.span = ""
    · have hne : ¬ e.span = s := fun hx => hs (hx ▸ h)
      rw [pass1Step_skip m e h]
      simp [List.filter, hne]
    · rw [pass1Step_entriesOf m e s h]
      by_cases hes : e.span = s
      · simp [List.filter, hes]
      · simp [List.filter, hes]

theorem pass1_fold_childrenOf :
    ∀ (es : List Entry) (m : List (String × Span)) (s : String),
      childrenOfM (List.foldl pass1Step m es) s = childrenOfM m s := by
  intro es
  induction es with
  | nil => intro m s; simp
  | cons e es ih =>
    intro m s
    rw [List.foldl_cons, ih, pass1Step_childrenOf]

theorem pass1_fold_nameOf (s : String) (hs : ¬ s = "") :
    ∀ (es : List Entry) (m : List (String × Span)),
      nameOfM (List.foldl pass1Step m es) s =
        (match (es.filter (fun e => decide (e.span = s) && isStartedMessage e.message)).getLast? with
         | some e => extractSpanName e.message
         | none => nameOfM m s) := by
  intro es
  induction es with
  | nil => intro m; simp
  | cons e es ih =>
    intro m
    rw [List.foldl_cons, ih]
    by_cases hp : e.span = s ∧ isStartedMessage e.message
    · have hfil : (List.filter (fun e => decide (e.span = s) && isStartedMessage e.message)
          (e :: es)) = e :: List.filter (fun e => decide (e.span = s) && isStartedMessage e.message) es := by
        simp [List.filter, hp.1, hp.2]
      rw [hfil]
      have hstep : nameOfM (pass1Step m e) s = extractSpanName e.message := by
        have hnz : ¬ e.span = "" := fun hx => hs (hp.1 ▸ hx)
        rw [pass1Step_nameOf m e s hnz, if_pos hp]
      cases hlast : (List.filter (fun e => decide (e.span = s) && isStartedMessage e.message) es).getLast? with
      | none =>
        have : List.filter (fun e => decide (e.span = s) && isStartedMessage e.message) es = [] := by
          cases hf : List.filter (fun e => decide (e.span = s) && isStartedMessage e.message) es with
          | nil => rfl
          | cons a l => rw [hf] at hlast; simp [List.getLast?] at hlast
        rw [this]
        simpa using hstep
      | some a =>
        have hne : ¬ (List.filter (fun e => decide (e.span = s) && isStartedMessage e.message) es) = [] := by
          intro hf
          rw [hf] at hlast
          simp at hlast
        cases hf : List.filter (fun e => decide (e.span = s) && isStartedMessage e.message) es with
        | nil => exact absurd hf hne
        | cons b l =>
          rw [hf] at hlast
          rw [List.getLast?_cons_cons, hlast]
    · have hfil : (List.filter (fun e => decide (e.span = s) && isStartedMessage e.message)
          (e :: es)) = List.filter (fun e => decide (e.span = s) && isStartedMessage e.message) es := by
        rcases Decidable.not_and_iff_or_not.mp hp with h | h <;> simp [List.filter, h]
      rw [hfil]
      have hstep : nameOfM (pass1Step m e) s = nameOfM m s := by
        by_cases hnz : e.span = ""
        · rw [pass1Step_skip m e hnz]
        · rw [pass1Step_nameOf m e s hnz, if_neg hp]
      rw [hstep]

theorem pass1Step_keys_mem (m : List (String × Span)) (e : Entry) (s : String) :
    s ∈ alistKeys (pass1Step m e) ↔
      s ∈ alistKeys m ∨ (¬ s = "" ∧ e.span = s) := by
  rw [pass1Step_keys]
  by_cases h : e.span = "" ∨ e.span ∈ alistKeys m
  · rw [if_pos h]
    constructor
    · exact Or.inl
    · rintro (hm | ⟨hnz, heq⟩)
      · exact hm
      · rcases h with h | h
        · exact absurd (heq ▸ h) hnz
        · exact heq ▸ h
  · rw [if_neg h]
    push_neg at h
    rw [List.mem_append]
    constructor
    · rintro (hm | hm)
      · exact Or.inl hm
      · simp at hm
        exact Or.inr ⟨hm ▸ h.1, hm.symm⟩
    · rintro (hm | ⟨hnz, heq⟩)
      · exact Or.inl hm
      · exact Or.inr (by simp [heq])

theorem pass1_fold_keys_mem :
    ∀ (es : List Entry) (m : List (String × Span)) (s : String),
      s ∈ alistKeys (List.foldl pass1Step m es) ↔
        s ∈ alistKeys m ∨ (¬ s = "" ∧ ∃ e ∈ es, e.span = s) := by
  intro es
  induction es with
  | nil => intro m s; simp
  | cons e es ih =>
    intro m s
    rw [List.foldl_cons, ih, pass1Step_keys_mem]
    constructor
    · rintro ((hm | ⟨hnz, heq⟩) | ⟨hnz, a, ha, hb⟩)
      · exact Or.inl hm
      · exact Or.inr ⟨hnz, e, List.mem_cons_self e es, heq⟩
      · exact Or.inr ⟨hnz, a, List.mem_cons_of_mem _ ha, hb⟩
    · rintro (hm | ⟨hnz, a, ha, hb⟩)
      · exact Or.inl (Or.inl hm)
      · rcases List.mem_cons.mp ha with rfl | ha2
        · exact Or.inl (Or.inr ⟨hnz, hb⟩)
        · exact Or.inr ⟨hnz, a, ha2, hb⟩

theorem pass1_fold_keys_nodup :
    ∀ (es : List Entry) (m : List (String × Span)),
      (alistKeys m).Nodup → (alistKeys (List.foldl pass1Step m es)).Nodup := by
  intro es
  induction es with
  | nil => intro m h; simpa using h
  | cons e es ih =>
    intro m h
    rw [List.foldl_cons]
    refine ih _ ?_
    rw [pass1Step_keys]
    by_cases hc : e.span = "" ∨ e.span ∈ alistKeys m
    · rwa [if_pos hc]
    · rw [if_neg hc]
      push_neg at hc
      refine List.Nodup.append h (by simp) ?_
      intro b hb hbk
      simp at hbk
      subst hbk
      exact hc.2 hb

theorem sumEntriesLen_upsert (m : List (String × Span)) (k : String) (sp : Span)
    (h : sp.entries.length = (entriesOfM m k).length + 1) :
    sumEntriesLen (alistUpsert m k sp) = sumEntriesLen m + 1 := by
  induction m with
  | nil =>
    simp [entriesOfM, alistLookup] at h
    simp [alistUpsert, sumEntriesLen, h]
  | cons kv t ih =>
    obtain ⟨k1, v1⟩ := kv
    by_cases h1 : k1 = k
    · subst h1
      simp only [entriesOfM, alistLookup, if_pos rfl] at h
      simp [alistUpsert, sumEntriesLen, h]
      omega
    · simp only [entriesOfM, alistLookup, if_neg h1] at h
      simp only [alistUpsert, if_neg h1, sumEntriesLen, List.map_cons, List.sum_cons]
      have := ih (by simpa [entriesOfM] using h)
      simp only [sumEntriesLen] at this
      omega

theorem pass1Step_sum (m : List (String × Span)) (e : Entry) :
    sumEntriesLen (pass1Step m e) = sumEntriesLen m + (if e.span = "" then 0 else 1) := by
  by_cases h : e.span = ""
  · rw [pass1Step_skip m e h, if_pos h]
    omega
  · rw [if_neg h]
    unfold pass1Step
    rw [if_neg h]
    refine sumEntriesLen_upsert m e.span _ ?_
    rw [stepSpan_entries m e]
    simp

theorem pass1_fold_sum :
    ∀ (es : List Entry) (m : List (String × Span)),
      sumEntriesLen (List.foldl pass1Step m es) =
        sumEntriesLen m + (es.filter (fun e => !(e.span = ""))).length := by
  intro es
  induction es with
  | nil => intro m; simp
  | cons e es ih =>
    intro m
    rw [List.foldl_cons, ih, pass1Step_sum]
    by_cases h : e.span = "" <;> simp [List.filter, h] <;> omega

theorem scrubEq_refl (a : List (String × Span)) : ScrubEq a a := fun _ => rfl

theorem scrubEq_trans {a b c : List (String × Span)} (h1 : ScrubEq a b) (h2 : ScrubEq b c) :
    ScrubEq a c := fun s => (h1 s).trans (h2 s)

theorem scrubEq_parentOf {a b : List (String × Span)} (h : ScrubEq a b) (x : String) :
    parentOfM a x = parentOfM b x := by
  have hx := h x
  unfold parentOfM
  cases ha : alistLookup a x <;> cases hb : alistLookup b x <;>
    simp [ha, hb, scrub] at hx ⊢
  exact hx.2.2.1

theorem scrubEq_entriesOf {a b : List (String × Span)} (h : ScrubEq a b) (x : String) :
    entriesOfM a x = entriesOfM b x := by
  have hx := h x
  unfold entriesOfM
  cases ha : alistLookup a x <;> cases hb : alistLookup b x <;>
    simp [ha, hb, scrub] at hx ⊢
  exact hx.2.2.2.2.2

theorem scrubEq_nameOf {a b : List (String × Span)} (h : ScrubEq a b) (x : String) :
    nameOfM a x = nameOfM b x := by
  have hx := h x
  unfold nameOfM
  cases ha : alistLookup a x <;> cases hb : alistLookup b x <;>
    simp [ha, hb, scrub] at hx ⊢
  exact hx.2.1

theorem scrubEq_timeOf {a b : List (String × Span)} (h : ScrubEq a b) (x : String) :
    timeOf a x = timeOf b x := by
  have hx := h x
  unfold timeOf
  cases ha : alistLookup a x <;> cases hb : alistLookup b x <;>
    simp [ha, hb, scrub] at hx ⊢
  exact hx.2.2.2.1

theorem scrubEq_isSome {a b : List (String × Span)} (h : ScrubEq a b) (x : String) :
    (alistLookup a x).isSome = (alistLookup b x).isSome := by
  have hx := h x
  cases ha : alistLookup a x <;> cases hb : alistLookup b x <;> simp [ha, hb] at hx ⊢

theorem scrubEq_rootTest {a b : List (String × Span)} (h : ScrubEq a b) (x : String) :
    rootTest a x = rootTest b x := by
  have hx := h x
  unfold rootTest
  cases ha : alistLookup a x with
  | none =>
    cases hb : alistLookup b x with
    | none => rfl
    | some sb =>
      rw [ha, hb] at hx
      simp at hx
  | some sa =>
    cases hb : alistLookup b x with
    | none =>
      rw [ha, hb] at hx
      simp at hx
    | some sb =>
      rw [ha, hb] at hx
      simp [scrub] at hx
      show (decide (sa.parent = "") || (alistLookup a sa.parent).isNone) =
        (decide (sb.parent = "") || (alistLookup b sb.parent).isNone)
      rw [hx.2.2.1]
      have hi : (alistLookup a sb.parent).isSome = (alistLookup b sb.parent).isSome :=
        scrubEq_isSome h _
      cases hA : alistLookup a sb.parent <;> cases hB : alistLookup b sb.parent <;>
        simp [hA, hB] at hi ⊢

theorem pass2Step_spans_scrubEq (t : Tree) (id1 : String) :
    ScrubEq (pass2Step t id1).spans t.spans := by
  intro s
  unfold pass2Step
  cases hl : alistLookup t.spans id1 with
  | none => rfl
  | some sp =>
    by_cases hp : sp.parent = ""
    · simp [hp]
    · cases hpar : alistLookup t.spans sp.parent with
      | some psp =>
        simp [hp, hpar, alistLookup_modify]
        split
        · rename_i heq
          subst heq
          simp [hpar, scrub]
        · rfl
      | none => simp [hp, hpar]

theorem pass2Step_keys (t : Tree) (id1 : String) :
    alistKeys (pass2Step t id1).spans = alistKeys t.spans := by
  unfold pass2Step
  cases hl : alistLookup t.spans id1 with
  | none => rfl
  | some sp =>
    by_cases hp : sp.parent = ""
    · simp [hp]
    · cases hpar : alistLookup t.spans sp.parent with
      | some psp => simp [hp, hpar, alistKeys_modify]
      | none => simp [hp, hpar]

theorem pass2Step_roots (t : Tree) (id1 : String) :
    (pass2Step t id1).roots =
      t.roots ++ (if rootTest t.spans id1 then [id1] else []) := by
  unfold pass2Step rootTest
  cases hl : alistLookup t.spans id1 with
  | none => simp
  | some sp =>
    by_cases hp : sp.parent = ""
    · simp [hp]
    · cases hpar : alistLookup t.spans sp.parent with
      | some psp => simp [hp, hpar]
      | none => simp [hp, hpar]

theorem pass2_fold_scrubEq (m : List (String × Span)) :
    ∀ (ord : List String) (t : Tree), ScrubEq t.spans m →
      ScrubEq (List.foldl pass2Step t ord).spans m := by
  intro ord
  induction ord with
  | nil => intro t h; simpa using h
  | cons id1 ord ih =>
    intro t h
    rw [List.foldl_cons]
    exact ih _ (scrubEq_trans (pass2Step_spans_scrubEq t id1) h)

theorem pass2_fold_keys :
    ∀ (ord : List String) (t : Tree),
      alistKeys (List.foldl pass2Step t ord).spans = alistKeys t.spans := by
  intro ord
  induction ord with
  | nil => intro t; rfl
  | cons id1 ord ih =>
    intro t
    rw [List.foldl_cons, ih, pass2Step_keys]

theorem pass2_fold_roots (m : List (String × Span)) :
    ∀ (ord : List String) (t : Tree), ScrubEq t.spans m →
      (List.foldl pass2Step t ord).roots = t.roots ++ ord.filter (rootTest m) := by
  intro ord
  induction ord with
  | nil => intro t _; simp
  | cons id1 ord ih =>
    intro t h
    rw [List.foldl_cons, ih _ (scrubEq_trans (pass2Step_spans_scrubEq t id1) h)]
    rw [pass2Step_roots, List.append_assoc]
    rw [show rootTest t.spans id1 = rootTest m id1 from scrubEq_rootTest h id1]
    by_cases hr : rootTest m id1 = true <;> simp [List.filter, hr]

theorem sumMap_modify (g : Span → Nat) :
    ∀ (m : List (String × Span)) (p : String) (f : Span → Span) (psp : Span),
      alistLookup m p = some psp →
      ((alistModify m p f).map (fun kv => g kv.2)).sum + g psp =
        (m.map (fun kv => g kv.2)).sum + g (f psp) := by
  intro m
  induction m with
  | nil => intro p f psp hp; simp [alistLookup] at hp
  | cons kv t ih =>
    intro p f psp hp
    obtain ⟨k1, v1⟩ := kv
    by_cases h1 : k1 = p
    · subst h1
      simp [alistLookup] at hp
      subst hp
      simp [alistModify]
      omega
    · simp only [alistLookup, if_neg h1] at hp
      simp only [alistModify, if_neg h1, List.map_cons, List.sum_cons]
      have := ih p f psp hp
      omega

theorem pass2Step_occCount (t : Tree) (id1 s : String) :
    occCount (pass2Step t id1) s =
      occCount t s + (if (alistLookup t.spans id1).isSome ∧ id1 = s then 1 else 0) := by
  unfold pass2Step
  cases hl : alistLookup t.spans id1 with
  | none => simp [hl]
  | some sp =>
    by_cases hp : sp.parent = ""
    · simp only [hl, if_pos hp]
      unfold occCount
      simp only [List.count_append]
      by_cases hs : id1 = s <;> simp [hs, List.count_cons, hl] <;> omega
    · cases hpar : alistLookup t.spans sp.parent with
      | some psp =>
        simp only [hl, if_neg hp, hpar]
        unfold occCount sumChildCount
        have hmod := sumMap_modify (fun sp2 => sp2.children.count s) t.spans sp.parent
          (fun p2 => { p2 with children := p2.children ++ [id1] }) psp hpar
        simp only [List.count_append] at hmod
        by_cases hs : id1 = s
        · subst hs
          simp only [hl]
          simp at hmod ⊢
          omega
        · simp only [hl]
          have hc : List.count s [id1] = 0 := by
            rw [List.count_eq_zero]
            intro hmem
            simp at hmem
            exact hs hmem.symm
          rw [hc] at hmod
          simp [hs] at hmod ⊢
          omega
      | none =>
        simp only [hl, if_neg hp, hpar]
        unfold occCount
        simp only [List.count_append]
        by_cases hs : id1 = s <;> simp [hs, List.count_cons, hl] <;> omega

theorem pass2_fold_occCount (m : List (String × Span)) (s : String) :
    ∀ (ord : List String) (t : Tree), ScrubEq t.spans m →
      occCount (List.foldl pass2Step t ord) s =
        occCount t s +
          (ord.filter (fun id1 => (alistLookup m id1).isSome && decide (id1 = s))).length := by
  intro ord
  induction ord with
  | nil => intro t _; simp
  | cons id1 ord ih =>
    intro t h
    rw [List.foldl_cons, ih _ (scrubEq_trans (pass2Step_spans_scrubEq t id1) h)]
    rw [pass2Step_occCount]
    have hsome : (alistLookup t.spans id1).isSome = (alistLookup m id1).isSome :=
      scrubEq_isSome h id1
    by_cases hc : (alistLookup m id1).isSome ∧ id1 = s
    · rw [if_pos (by rw [hsome]; exact hc)]
      have hpred : ((alistLookup m id1).isSome && decide (id1 = s)) = true := by
        rw [Bool.and_eq_true]
        exact ⟨hc.1, by simp [hc.2]⟩
      rw [List.filter_cons]
      simp only [hpred, if_pos]
      simp
      omega
    · rw [if_neg (by rw [hsome]; exact hc)]
      have hpred : ((alistLookup m id1).isSome && decide (id1 = s)) = false := by
        rcases Decidable.not_and_iff_or_not.mp hc with h1 | h1 <;> simp [h1]
      rw [List.filter_cons]
      simp only [hpred]
      simp

theorem pass2Step_childrenOK (t : Tree) (id1 : String)
    (hok : ∀ p x, x ∈ childrenOfM t.spans p → parentOfM t.spans x = p) :
    ∀ p x, x ∈ childrenOfM (pass2Step t id1).spans p →
      parentOfM (pass2Step t id1).spans x = p := by
  intro p x hmem
  rw [scrubEq_parentOf (pass2Step_spans_scrubEq t id1) x]
  revert hmem
  unfold pass2Step
  cases hl : alistLookup t.spans id1 with
  | none => exact hok p x
  | some sp =>
    by_cases hp : sp.parent = ""
    · simp only [hl, if_pos hp]
      exact hok p x
    · cases hpar : alistLookup t.spans sp.parent with
      | some psp =>
        simp only [hl, if_neg hp, hpar]
        intro hmem
        unfold childrenOfM at hmem
        rw [alistLookup_modify] at hmem
        by_cases hpp : sp.parent = p
        · rw [if_pos hpp] at hmem
          subst hpp
          rw [hpar] at hmem
          simp at hmem
          rcases hmem with hmem | hmem
          · exact hok sp.parent x (by unfold childrenOfM; rw [hpar]; exact hmem)
          · subst hmem
            unfold parentOfM
            rw [hl]
        · rw [if_neg hpp] at hmem
          exact hok p x (by unfold childrenOfM; exact hmem)
      | none =>
        simp only [hl, if_neg hp, hpar]
        exact hok p x

theorem pass2_fold_childrenOK :
    ∀ (ord : List String) (t : Tree),
      (∀ p x, x ∈ childrenOfM t.spans p → parentOfM t.spans x = p) →
      ∀ p x, x ∈ childrenOfM (List.foldl pass2Step t ord).spans p →
        parentOfM (List.foldl pass2Step t ord).spans x = p := by
  intro ord
  induction ord with
  | nil => intro t h; simpa using h
  | cons id1 ord ih =>
    intro t h
    rw [List.foldl_cons]
    exact ih _ (pass2Step_childrenOK t id1 h)

theorem sortByStartTime_spans (t : Tree) :
    (sortByStartTime t).spans =
      t.spans.map (fun kv => (kv.1,
        sortChild (fun a b => decide (timeOf t.spans a ≤ timeOf t.spans b)) kv.2)) := rfl

theorem sortByStartTime_roots (t : Tree) :
    (sortByStartTime t).roots =
      insertionSortB (fun a b => decide (timeOf t.spans a ≤ timeOf t.spans b)) t.roots := rfl

theorem scrub_sortChild (le : String → String → Bool) (sp : Span) :
    scrub (sortChild le sp) = scrub sp := by
  unfold sortChild scrub
  split <;> rfl

theorem sortByStartTime_scrubEq (t : Tree) : ScrubEq (sortByStartTime t).spans t.spans := by
  intro s
  rw [sortByStartTime_spans, alistLookup_mapVal]
  cases alistLookup t.spans s <;> simp [scrub_sortChild]

theorem sortByStartTime_keys (t : Tree) :
    alistKeys (sortByStartTime t).spans = alistKeys t.spans := by
  rw [sortByStartTime_spans, alistKeys_mapVal]

theorem sortChild_children_perm (le : String → String → Bool) (sp : Span) :
    (sortChild le sp).children.Perm sp.children := by
  unfold sortChild
  split
  · exact insertionSortB_perm le sp.children
  · exact List.Perm.refl _

theorem sortByStartTime_childrenOf_perm (t : Tree) (p : String) :
    (childrenOfM (sortByStartTime t).spans p).Perm (childrenOfM t.spans p) := by
  unfold childrenOfM
  rw [sortByStartTime_spans, alistLookup_mapVal]
  cases alistLookup t.spans p with
  | none => simp
  | some sp => simpa using sortChild_children_perm _ sp

theorem sortByStartTime_roots_perm (t : Tree) :
    (sortByStartTime t).roots.Perm t.roots := by
  rw [sortByStartTime_roots]
  exact insertionSortB_perm _ _

theorem sumChildCount_map_sortChild (le : String → String → Bool) (s : String) :
    ∀ m : List (String × Span),
      sumChildCount (m.map (fun kv => (kv.1, sortChild le kv.2))) s = sumChildCount m s := by
  intro m
  induction m with
  | nil => rfl
  | cons kv t ih =>
    unfold sumChildCount at ih ⊢
    simp only [List.map_cons, List.sum_cons]
    rw [ih, (sortChild_children_perm le kv.2).count_eq]

theorem sortByStartTime_occCount (t : Tree) (s : String) :
    occCount (sortByStartTime t) s = occCount t s := by
  unfold occCount
  rw [(sortByStartTime_roots_perm t).count_eq, sortByStartTime_spans,
    sumChildCount_map_sortChild]

theorem pass1_childrenOf_nil (es : List Entry) (s : String) :
    childrenOfM (pass1 es) s = [] := by
  unfold pass1
  rw [pass1_fold_childrenOf]
  rfl

theorem pass1_keys_nodup (es : List Entry) : (alistKeys (pass1 es)).Nodup :=
  pass1_fold_keys_nodup es [] (by simp [alistKeys])

theorem pass2_spans_scrubEq (es : List Entry) (ord : List String) :
    ScrubEq (pass2 (pass1 es) ord).spans (pass1 es) :=
  pass2_fold_scrubEq (pass1 es) ord { roots := [], spans := pass1 es }
    (scrubEq_refl (pass1 es))

theorem BuildTree_scrubEq (es : List Entry) (ord : List String) :
    ScrubEq (BuildTree es ord).spans (pass1 es) := by
  unfold BuildTree
  by_cases h : es.isEmpty
  · rw [if_pos h]
    have : es = [] := List.isEmpty_iff.mp h
    subst this
    intro s
    rfl
  · rw [if_neg h]
    exact scrubEq_trans (sortByStartTime_scrubEq _) (pass2_spans_scrubEq es ord)

theorem BuildTree_keys (es : List Entry) (ord : List String) :
    alistKeys (BuildTree es ord).spans = alistKeys (pass1 es) := by
  unfold BuildTree
  by_cases h : es.isEmpty
  · rw [if_pos h]
    have : es = [] := List.isEmpty_iff.mp h
    subst this
    rfl
  · rw [if_neg h, sortByStartTime_keys]
    exact pass2_fold_keys ord _

theorem BuildTree_roots_eq (es : List Entry) (ord : List String) (h : ¬ es.isEmpty) :
    (BuildTree es ord).roots =
      insertionSortB
        (fun a b => decide (timeOf (pass2 (pass1 es) ord).spans a ≤
          timeOf (pass2 (pass1 es) ord).spans b))
        (ord.filter (rootTest (pass1 es))) := by
  unfold BuildTree
  rw [if_neg h, sortByStartTime_roots]
  congr 1
  have := pass2_fold_roots (pass1 es) ord { roots := [], spans := pass1 es }
    (scrubEq_refl (pass1 es))
  simpa [pass2] using this

theorem BuildTree_roots_perm (es : List Entry) (ord : List String) :
    (BuildTree es ord).roots.Perm (ord.filter (rootTest (pass1 es))) := by
  unfold BuildTree
  by_cases h : es.isEmpty
  · rw [if_pos h]
    have : es = [] := List.isEmpty_iff.mp h
    subst this
    have : ord.filter (rootTest (pass1 [])) = [] := by
      cases ord with
      | nil => rfl
      | cons a l =>
        apply List.filter_eq_nil.mpr
        intro x _
        simp [rootTest, pass1, alistLookup]
    rw [this]
  · rw [if_neg h]
    refine (sortByStartTime_roots_perm _).trans ?_
    have := pass2_fold_roots (pass1 es) ord { roots := [], spans := pass1 es }
      (scrubEq_refl (pass1 es))
    unfold pass2
    rw [this]
    simp

theorem BuildTree_occCount (es : List Entry) (ord : List String) (s : String)
    (h : ¬ es.isEmpty) :
    occCount (BuildTree es ord) s =
      (ord.filter (fun id1 => (alistLookup (pass1 es) id1).isSome && decide (id1 = s))).length := by
  unfold BuildTree
  rw [if_neg h, sortByStartTime_occCount]
  have hocc := pass2_fold_occCount (pass1 es) s ord { roots := [], spans := pass1 es }
    (scrubEq_refl (pass1 es))
  unfold pass2
  rw [hocc]
  have hzero : occCount { roots := [], spans := pass1 es } s = 0 := by
    unfold occCount sumChildCount
    simp only [List.count_nil, Nat.zero_add]
    apply List.sum_eq_zero
    intro n hn
    rw [List.mem_map] at hn
    obtain ⟨x, hx, rfl⟩ := hn
    have hnd := pass1_keys_nodup es
    have hl : alistLookup (pass1 es) x.1 = some x.2 := alistLookup_of_mem_nodup _ x hx hnd
    have hc : childrenOfM (pass1 es) x.1 = [] := pass1_childrenOf_nil es x.1
    unfold childrenOfM at hc
    rw [hl] at hc
    simp at hc
    rw [hc]
    rfl
  rw [hzero]
  omega

theorem BuildTree_childrenOK (es : List Entry) (ord : List String) :
    ∀ p x, x ∈ childrenOfM (BuildTree es ord).spans p →
      parentOfM (BuildTree es ord).spans x = p := by
  unfold BuildTree
  by_cases h : es.isEmpty
  · rw [if_pos h]
    intro p x hx
    simp [childrenOfM, alistLookup] at hx
  · rw [if_neg h]
    intro p x hx
    have hperm := sortByStartTime_childrenOf_perm (pass2 (pass1 es) ord) p
    have hx2 : x ∈ childrenOfM (pass2 (pass1 es) ord).spans p := hperm.mem_iff.mp hx
    have hbase : ∀ p x, x ∈ childrenOfM ({ roots := [], spans := pass1 es } : Tree).spans p →
        parentOfM ({ roots := [], spans := pass1 es } : Tree).spans x = p := by
      intro p x hx
      have : childrenOfM (pass1 es) p = [] := pass1_childrenOf_nil es p
      rw [show ({ roots := [], spans := pass1 es } : Tree).spans = pass1 es from rfl] at hx
      rw [this] at hx
      simp at hx
    have := pass2_fold_childrenOK ord { roots := [], spans := pass1 es } hbase p x hx2
    rw [scrubEq_parentOf (sortByStartTime_scrubEq (pass2 (pass1 es) ord)) x]
    exact this

theorem BuildTree_entriesOf (es : List Entry) (ord : List String) (s : String)
    (hs : ¬ s = "") :
    entriesOfM (BuildTree es ord).spans s = es.filter (fun e => decide (e.span = s)) := by
  rw [scrubEq_entriesOf (BuildTree_scrubEq es ord) s]
  unfold pass1
  rw [pass1_fold_entriesOf s hs es []]
  rfl

theorem BuildTree_nameOf (es : List Entry) (ord : List String) (s : String)
    (hs : ¬ s = "") :
    nameOfM (BuildTree es ord).spans s =
      (match (es.filter (fun e => decide (e.span = s) && isStartedMessage e.message)).getLast? with
       | some e => extractSpanName e.message
       | none => "") := by
  rw [scrubEq_nameOf (BuildTree_scrubEq es ord) s]
  unfold pass1
  rw [pass1_fold_nameOf s hs es []]
  rfl

theorem BuildTree_keys_mem (es : List Entry) (ord : List String) (s : String) :
    s ∈ alistKeys (BuildTree es ord).spans ↔ (¬ s = "" ∧ ∃ e ∈ es, e.span = s) := by
  rw [BuildTree_keys]
  unfold pass1
  rw [pass1_fold_keys_mem es [] s]
  simp [alistKeys]

theorem BuildTree_keys_nodup (es : List Entry) (ord : List String) :
    (alistKeys (BuildTree es ord).spans).Nodup := by
  rw [BuildTree_keys]
  exact pass1_keys_nodup es

theorem pass2Step_sumEntries (t : Tree) (id1 : String) :
    sumEntriesLen (pass2Step t id1).spans = sumEntriesLen t.spans := by
  unfold pass2Step
  cases hl : alistLookup t.spans id1 with
  | none => rfl
  | some sp =>
    by_cases hp : sp.parent = ""
    · simp [hp]
    · cases hpar : alistLookup t.spans sp.parent with
      | some psp =>
        simp only [hl, if_neg hp, hpar]
        have := sumMap_modify (fun sp2 => sp2.entries.length) t.spans sp.parent
          (fun p2 => { p2 with children := p2.children ++ [id1] }) psp hpar
        simp at this
        unfold sumEntriesLen
        omega
      | none => simp [hp, hpar]

theorem pass2_fold_sumEntries :
    ∀ (ord : List String) (t : Tree),
      sumEntriesLen (List.foldl pass2Step t ord).spans = sumEntriesLen t.spans := by
  intro ord
  induction ord with
  | nil => intro t; rfl
  | cons id1 ord ih =>
    intro t
    rw [List.foldl_cons, ih, pass2Step_sumEntries]

theorem sumEntriesLen_map_sortChild (le : String → String → Bool) :
    ∀ m : List (String × Span),
      sumEntriesLen (m.map (fun kv => (kv.1, sortChild le kv.2))) = sumEntriesLen m := by
  intro m
  induction m with
  | nil => rfl
  | cons kv t ih =>
    unfold sumEntriesLen at ih ⊢
    simp only [List.map_cons, List.sum_cons]
    rw [ih]
    have : (sortChild le kv.2).entries = kv.2.entries := by
      unfold sortChild
      split <;> rfl
    rw [this]

theorem BuildTree_sumEntries (es : List Entry) (ord : List String) :
    sumEntriesLen (BuildTree es ord).spans =
      (es.filter (fun e => !(e.span = ""))).length := by
  unfold BuildTree
  by_cases h : es.isEmpty
  · rw [if_pos h]
    have : es = [] := List.isEmpty_iff.mp h
    subst this
    rfl
  · rw [if_neg h, sortByStartTime_spans, sumEntriesLen_map_sortChild]
    unfold pass2
    rw [pass2_fold_sumEntries]
    have := pass1_fold_sum es []
    unfold pass1
    simpa [sumEntriesLen] using this

theorem perm_pair_cases {a b : String} (hab : ¬ a = b) :
    ∀ {l : List String}, l.Perm [a, b] → l = [a, b] ∨ l = [b, a] := by
  intro l h
  have hba : ¬ b = a := fun hh => hab hh.symm
  have hlen : l.length = 2 := by simpa using h.length_eq
  match l, hlen with
  | [x, y], _ =>
    have hx : x = a ∨ x = b := by
      have : x ∈ [a, b] := h.subset (by simp)
      simpa using this
    have hy : y = a ∨ y = b := by
      have : y ∈ [a, b] := h.subset (by simp)
      simpa using this
    by_cases hxa : x = a
    · rcases hy with hya | hyb
      · exfalso
        have hb2 : b ∈ [x, y] := h.mem_iff.mpr (by simp)
        simp [hxa, hya] at hb2
        exact hba hb2
      · exact Or.inl (by rw [hxa, hyb])
    · have hxb : x = b := hx.resolve_left hxa
      rcases hy with hya | hyb
      · exact Or.inr (by rw [hxb, hya])
      · exfalso
        have ha2 : a ∈ [x, y] := h.mem_iff.mpr (by simp)
        simp [hxb, hyb] at ha2
        exact hab ha2

set_option maxHeartbeats 2000000 in
theorem c1_entries_eval (pt : String → Option Int)
    (jdec : String → Option (List (String × JValue))) :
    (Parse pt jdec c1Lines).entries =
      [ { time := (match pt "2025-12-04T10:00:00Z" with | some t => t | none => 0),
          level := "INFO", message := "main started", span := "aaa", parent := "", attrs := [] }
      , { time := (match pt "2025-12-04T10:00:01Z" with | some t => t | none => 0),
          level := "INFO", message := "child started", span := "bbb", parent := "aaa", attrs := [] }
      , { time := (match pt "2025-12-04T10:00:02Z" with | some t => t | none => 0),
          level := "INFO", message := "child completed", span := "bbb", parent := "aaa",
          attrs := [("duration", "10ms")] }
      , { time := (match pt "2025-12-04T10:00:03Z" with | some t => t | none => 0),
          level := "INFO", message := "main completed", span := "aaa", parent := "",
          attrs := [("duration", "50ms")] } ] := rfl

set_option maxHeartbeats 4000000 in
/-- C1: end-to-end on the concrete four-line text input, running `Parse`
and then `BuildTree` (over any map-iteration order) yields a tree whose
roots list equals `["aaa"]`, where span `"aaa"` has name `"main"`,
duration `"50ms"`, children `["bbb"]`, and span `"bbb"` has name
`"child"`, duration `"10ms"`, parent `"aaa"`. -/
theorem C1_end_to_end (pt : String → Option Int)
    (jdec : String → Option (List (String × JValue))) (ord : List String)
    (h : ord.Perm (alistKeys (pass1 (Parse pt jdec c1Lines).entries))) :
    (BuildTree (Parse pt jdec c1Lines).entries ord).roots = ["aaa"] ∧
    nameOfT (BuildTree (Parse pt jdec c1Lines).entries ord) "aaa" = "main" ∧
    durationOfT (BuildTree (Parse pt jdec c1Lines).entries ord) "aaa" = "50ms" ∧
    childrenOfT (BuildTree (Parse pt jdec c1Lines).entries ord) "aaa" = ["bbb"] ∧
    nameOfT (BuildTree (Parse pt jdec c1Lines).entries ord) "bbb" = "child" ∧
    durationOfT (BuildTree (Parse pt jdec c1Lines).entries ord) "bbb" = "10ms" ∧
    parentOfT (BuildTree (Parse pt jdec c1Lines).entries ord) "bbb" = "aaa" := by
  have hkeys : alistKeys (pass1 (Parse pt jdec c1Lines).entries) = ["aaa", "bbb"] := rfl
  rw [hkeys] at h
  rw [c1_entries_eval pt jdec]
  rcases perm_pair_cases (by decide) h with rfl | rfl
  · exact ⟨rfl, rfl, rfl, rfl, rfl, rfl, rfl⟩
  · exact ⟨rfl, rfl, rfl, rfl, rfl, rfl, rfl⟩

/-- Witness for C1 at a concrete timestamp parser, JSON decoder and map
iteration order. -/
theorem C1_end_to_end_witness :
    (BuildTree (Parse ptNone jdecNone c1Lines).entries ["aaa", "bbb"]).roots = ["aaa"] ∧
    nameOfT (BuildTree (Parse ptNone jdecNone c1Lines).entries ["aaa", "bbb"]) "aaa" = "main" ∧
    durationOfT (BuildTree (Parse ptNone jdecNone c1Lines).entries ["aaa", "bbb"]) "aaa" = "50ms" ∧
    childrenOfT (BuildTree (Parse ptNone jdecNone c1Lines).entries ["aaa", "bbb"]) "aaa" = ["bbb"] ∧
    nameOfT (BuildTree (Parse ptNone jdecNone c1Lines).entries ["aaa", "bbb"]) "bbb" = "child" ∧
    durationOfT (BuildTree (Parse ptNone jdecNone c1Lines).entries ["aaa", "bbb"]) "bbb" = "10ms" ∧
    parentOfT (BuildTree (Parse ptNone jdecNone c1Lines).entries ["aaa", "bbb"]) "bbb" = "aaa" :=
  C1_end_to_end ptNone jdecNone ["aaa", "bbb"]
    (by
      rw [c1_entries_eval ptNone jdecNone]
      rfl)

/-- C2: for every entry list (and any map-iteration order that is a
permutation of the grouped span ids), in the tree produced by `BuildTree`
every entry with a non-empty span identifier appears in exactly one span's
entries list, the total entry count across all spans equals the number of
input entries with non-empty span, and entries with empty span appear in
no span. -/
theorem C2_round_trip_grouping (es : List Entry) (ord : List String)
    (h : ord.Perm (alistKeys (pass1 es))) :
    (∀ e ∈ es, ¬ e.span = "" →
      ((BuildTree es ord).spans.filter (fun kv => decide (e ∈ kv.2.entries))).length = 1) ∧
    sumEntriesLen (BuildTree es ord).spans = (es.filter (fun e => !(e.span = ""))).length ∧
    (∀ e ∈ es, e.span = "" → ∀ kv ∈ (BuildTree es ord).spans, ¬ e ∈ kv.2.entries) := by
  have hnd := BuildTree_keys_nodup es ord
  have hmementries : ∀ kv ∈ (BuildTree es ord).spans, ∀ e : Entry,
      (e ∈ kv.2.entries ↔ (e ∈ es ∧ e.span = kv.1)) := by
    intro kv hkv e
    have hkey : kv.1 ∈ alistKeys (BuildTree es ord).spans := by
      rw [alistKeys, List.mem_map]
      exact ⟨kv, hkv, rfl⟩
    have hkne : ¬ kv.1 = "" := ((BuildTree_keys_mem es ord kv.1).mp hkey).1
    have hl := alistLookup_of_mem_nodup _ kv hkv hnd
    have hent : kv.2.entries = es.filter (fun e => decide (e.span = kv.1)) := by
      have := BuildTree_entriesOf es ord kv.1 hkne
      unfold entriesOfM at this
      rw [hl] at this
      simpa using this
    rw [hent, List.mem_filter]
    simp
  refine ⟨?_, BuildTree_sumEntries es ord, ?_⟩
  · intro e he hes
    have hcong : ((BuildTree es ord).spans.filter (fun kv => decide (e ∈ kv.2.entries))) =
        ((BuildTree es ord).spans.filter (fun kv => decide (kv.1 = e.span))) := by
      apply List.filter_congr
      intro kv hkv
      have := hmementries kv hkv e
      simp only [decide_eq_decide]
      rw [this]
      constructor
      · exact fun hx => hx.2.symm
      · exact fun hx => ⟨he, hx.symm⟩
    rw [hcong, alistFilter_key_length]
    apply List.count_eq_one_of_mem hnd
    rw [BuildTree_keys_mem]
    exact ⟨hes, e, he, rfl⟩
  · intro e he hes kv hkv hmem
    have := (hmementries kv hkv e).mp hmem
    have hkey : kv.1 ∈ alistKeys (BuildTree es ord).spans := by
      rw [alistKeys, List.mem_map]
      exact ⟨kv, hkv, rfl⟩
    have hkne : ¬ kv.1 = "" := ((BuildTree_keys_mem es ord kv.1).mp hkey).1
    exact hkne (this.2 ▸ hes)

/-- Witness for C2 on a concrete two-entry list (one entry with a span,
one without). -/
theorem C2_round_trip_grouping_witness :
    (((BuildTree [c2wEntryA, c2wEntryB] ["s"]).spans.filter
        (fun kv => decide (c2wEntryA ∈ kv.2.entries))).length = 1) ∧
    sumEntriesLen (BuildTree [c2wEntryA, c2wEntryB] ["s"]).spans = 1 ∧
    (∀ kv ∈ (BuildTree [c2wEntryA, c2wEntryB] ["s"]).spans, ¬ c2wEntryB ∈ kv.2.entries) := by
  have h := C2_round_trip_grouping [c2wEntryA, c2wEntryB] ["s"] (by decide)
  refine ⟨h.1 c2wEntryA (by decide) (by decide), ?_, ?_⟩
  · rw [h.2.1]
    decide
  · intro kv hkv
    exact h.2.2 c2wEntryB (by decide) (by decide) kv hkv

theorem parseLoop_known (pt : String → Option Int)
    (jdec : String → Option (List (String × JValue))) (fmt : Format)
    (hf : ¬ fmt = Format.unknown) :
    ∀ lines : List String,
      parseLoop pt jdec fmt lines = (fmt, lines.filterMap (lineGate pt jdec fmt)) := by
  intro lines
  induction lines with
  | nil => simp [parseLoop]
  | cons l rest ih =>
    by_cases hb : trimString l = ""
    · simp only [parseLoop, List.filterMap_cons]
      rw [if_pos hb]
      rw [show lineGate pt jdec fmt l = none from by simp [lineGate, hb]]
      simpa using ih
    · simp only [parseLoop, List.filterMap_cons]
      rw [if_neg hb]
      rw [if_neg hf]
      rw [ih]
      rw [show lineGate pt jdec fmt l =
          (match parseByFormat pt jdec fmt (trimString l) with
           | Except.ok e => if isValidEntry e then some e else none
           | Except.error _ => none) from by simp [lineGate, hb]]
      cases parseByFormat pt jdec fmt (trimString l) with
      | ok e => by_cases hv : isValidEntry e <;> simp [hv]
      | error err => simp

theorem parseLoop_unknown (pt : String → Option Int)
    (jdec : String → Option (List (String × JValue))) :
    ∀ lines : List String,
      parseLoop pt jdec Format.unknown lines =
        (detectFormat lines, lines.filterMap (lineGate pt jdec (detectFormat lines))) := by
  intro lines
  induction lines with
  | nil => simp [parseLoop, detectFormat]
  | cons l rest ih =>
    by_cases hb : trimString l = ""
    · rw [show detectFormat (l :: rest) = detectFormat rest from by simp [detectFormat, hb]]
      simp only [parseLoop, List.filterMap_cons]
      rw [if_pos hb]
      rw [show lineGate pt jdec (detectFormat rest) l = none from by simp [lineGate, hb]]
      simpa using ih
    · have hdet : detectFormat (l :: rest) =
          (if headIs (trimString l) '\x7b' then Format.json else Format.text) := by
        simp [detectFormat, hb]
      have hne : ¬ (if headIs (trimString l) '\x7b' then Format.json else Format.text) =
          Format.unknown := by
        split <;> simp
      rw [hdet]
      simp only [parseLoop, List.filterMap_cons]
      rw [if_neg hb]
      simp only [if_true]
      rw [parseLoop_known pt jdec _ hne rest]
      rw [show lineGate pt jdec
            (if headIs (trimString l) '\x7b' then Format.json else Format.text) l =
          (match parseByFormat pt jdec
              (if headIs (trimString l) '\x7b' then Format.json else Format.text)
              (trimString l) with
           | Except.ok e => if isValidEntry e then some e else none
           | Except.error _ => none) from by simp [lineGate, hb]]
      cases parseByFormat pt jdec
          (if headIs (trimString l) '\x7b' then Format.json else Format.text)
          (trimString l) with
      | ok e => by_cases hv : isValidEntry e <;> simp [hv]
      | error err => simp

/-- C7: for every input, `Parse` detects the format exactly once, from the
first line that is non-blank after trimming surrounding whitespace — JSON
if that line starts with a brace, text otherwise — and parses every line
with that single format. -/
theorem C7_format_detection (pt : String → Option Int)
    (jdec : String → Option (List (String × JValue))) (lines : List String) :
    (Parse pt jdec lines).format = detectFormat lines ∧
    (Parse pt jdec lines).entries =
      lines.filterMap (lineGate pt jdec (detectFormat lines)) := by
  unfold Parse
  rw [parseLoop_unknown pt jdec lines]
  exact ⟨rfl, rfl⟩

/-- C9: for every input, a line that fails to parse or fails the validity
gate is skipped silently and parsing continues; the output entry list is
the input-ordered sublist of accepted lines.  On the concrete input of a
valid line, a line with no `=` signs, and another valid line, exactly the
two valid entries result, in original order. -/
theorem C9_skip_invalid_lines (pt : String → Option Int)
    (jdec : String → Option (List (String × JValue))) (lines : List String) :
    (Parse pt jdec lines).entries =
      lines.filterMap (lineGate pt jdec (detectFormat lines)) ∧
    (Parse pt jdec ["level=INFO msg=ok", "no equals here", "level=WARN msg=bad"]).entries =
      [ { time := 0, level := "INFO", message := "ok", span := "", parent := "", attrs := [] }
      , { time := 0, level := "WARN", message := "bad", span := "", parent := "", attrs := [] } ] := by
  constructor
  · unfold Parse
    rw [parseLoop_unknown pt jdec lines]
  · rfl

theorem unescLoop_id_of_no_bs : ∀ s : List Char, ¬ '\\' ∈ s → unescLoop s = s := by
  intro s
  induction s using unescLoop.induct with
  | case1 => intro; rfl
  | case2 =>
    intro h
    exact absurd (by simp) h
  | case3 c hc =>
    intro h
    simp [unescLoop, hc]
  | case4 d ds ih =>
    intro h
    exact absurd (by simp) h
  | case5 c d ds hc ih =>
    intro h
    rw [unescLoop, if_neg hc]
    rw [ih ?_]
    intro hmem
    exact h (List.mem_cons_of_mem c hmem)

theorem unescapeQuoted_eq_unescLoop (s : List Char) : unescapeQuoted s = unescLoop s := by
  unfold unescapeQuoted
  by_cases h : '\\' ∈ s
  · rw [if_pos h]
  · rw [if_neg h, unescLoop_id_of_no_bs s h]

theorem unescLoop_cons_of_ne (c : Char) (hc : ¬ c = '\\') :
    ∀ l : List Char, unescLoop (c :: l) = c :: unescLoop l := by
  intro l
  cases l with
  | nil => simp [unescLoop, hc]
  | cons d ds => rw [unescLoop, if_neg hc]

theorem scanQuoted_fusion :
    ∀ cs : List Char,
      unescapeQuoted (scanQuoted cs).1 = (specQuoted cs).1 ∧
      (scanQuoted cs).2 = (specQuoted cs).2 := by
  intro cs
  induction cs using scanQuoted.induct with
  | case1 => exact ⟨rfl, rfl⟩
  | case2 => exact ⟨rfl, rfl⟩
  | case3 c hq =>
    rw [show scanQuoted [c] = ([c], []) from by simp [scanQuoted, hq]]
    rw [show specQuoted [c] = ([c], []) from by simp [specQuoted, hq]]
    constructor
    · rw [unescapeQuoted_eq_unescLoop]
      by_cases hbs : c = '\\' <;> simp [unescLoop, hbs]
    · rfl
  | case4 d ds =>
    exact ⟨rfl, rfl⟩
  | case5 d ds hq ih =>
    rw [unescapeQuoted_eq_unescLoop] at ih ⊢
    constructor
    · show unescLoop ('\\' :: d :: (scanQuoted ds).1) = escChar d :: (specQuoted ds).1
      rw [unescLoop]
      simp only [if_true]
      rw [ih.1]
    · show (scanQuoted ds).2 = (specQuoted ds).2
      exact ih.2
  | case6 c d ds hq hbs ih =>
    rw [unescapeQuoted_eq_unescLoop] at ih ⊢
    rw [show scanQuoted (c :: d :: ds) =
        (c :: (scanQuoted (d :: ds)).1, (scanQuoted (d :: ds)).2) from by
      simp [scanQuoted, hq, hbs]]
    rw [show specQuoted (c :: d :: ds) =
        (c :: (specQuoted (d :: ds)).1, (specQuoted (d :: ds)).2) from by
      simp [specQuoted, hq, hbs]]
    constructor
    · show unescLoop (c :: (scanQuoted (d :: ds)).1) = c :: (specQuoted (d :: ds)).1
      rw [unescLoop_cons_of_ne c hbs, ih.1]
    · exact ih.2

/-- C8: the tokenizer resolves a double-quoted value by scanning to the
matching unquoted closing quote (an unterminated quote consuming to end of
line) and applying the escape map `\n`→newline, `\t`→tab, `\r`→carriage
return, `\"`→`"`, `\\`→backslash, any other `\X`→literal `X` (the
two-phase slice-then-unescape of the source agrees with that one-pass
description for every input); the token `msg="say \"hello\""` yields the
value `say "hello"` with outer quotes stripped; and tokenization never
fails for any line. -/
theorem C8_tokenizer_quoting :
    (∀ cs : List Char,
      unescapeQuoted (scanQuoted cs).1 = (specQuoted cs).1 ∧
      (scanQuoted cs).2 = (specQuoted cs).2) ∧
    (escChar 'n' = '\n' ∧ escChar 't' = '\t' ∧ escChar 'r' = '\r' ∧
      escChar '"' = '"' ∧ escChar '\\' = '\\') ∧
    (∀ d : Char, ¬ d = 'n' → ¬ d = 't' → ¬ d = 'r' → ¬ d = '"' → ¬ d = '\\' →
      escChar d = d) ∧
    parseKeyValuePairs "msg=\"say \\\"hello\\\"\"" = Except.ok [("msg", "say \"hello\"")] ∧
    (∀ line : String, ∃ m, parseKeyValuePairs line = Except.ok m) := by
  refine ⟨scanQuoted_fusion, ⟨rfl, rfl, rfl, rfl, rfl⟩, ?_, rfl, fun line => ⟨_, rfl⟩⟩
  intro d h1 h2 h3 h4 h5
  simp [escChar, h1, h2, h3, h4, h5]

/-- Witness for C8: the default escape case applied at a concrete
character, alongside the tokenizer's totality at a concrete line. -/
theorem C8_tokenizer_quoting_witness :
    escChar 'q' = 'q' ∧ ∃ m, parseKeyValuePairs "a=b" = Except.ok m :=
  ⟨C8_tokenizer_quoting.2.2.1 'q' (by decide) (by decide) (by decide) (by decide) (by decide),
   C8_tokenizer_quoting.2.2.2.2 "a=b"⟩

theorem attrs_lookup_none_of_known (k : String) (hk : knownKey k = true) :
    ∀ raw : List (String × JValue),
      alistLookup ((raw.filter (fun kv => !(knownKey kv.1))).map
        (fun kv => (kv.1, renderJ kv.2))) k = none := by
  intro raw
  induction raw with
  | nil => rfl
  | cons kv t ih =>
    rw [List.filter_cons]
    by_cases hkv : knownKey kv.1 = true
    · simp only [hkv]
      simpa using ih
    · have hfalse : knownKey kv.1 = false := by
        cases h : knownKey kv.1
        · rfl
        · exact absurd h hkv
      simp only [hfalse]
      simp only [Bool.not_false, if_pos, List.map_cons]
      rw [alistLookup]
      have hne : ¬ kv.1 = k := by
        intro he
        rw [he, hk] at hfalse
        cases hfalse
      rw [if_neg hne]
      exact ih

/-- C10: for every JSON line that decodes to an object, a reserved key
(`time`, `level`, `msg`, `span`, `parent`) whose decoded value is not a
JSON string is silently ignored — the corresponding entry field keeps its
empty/absent default — and every reserved key is excluded from the entry's
attribute map. -/
theorem C10_json_nonstring_reserved (pt : String → Option Int)
    (jdec : String → Option (List (String × JValue))) (line : String)
    (raw : List (String × JValue)) (hdec : jdec line = some raw) :
    parseJSONLine pt jdec line = Except.ok (parseJSONObject pt raw) ∧
    (∀ r, alistLookup raw "time" = some (JValue.nonstr r) →
      (parseJSONObject pt raw).time = 0) ∧
    (∀ r, alistLookup raw "level" = some (JValue.nonstr r) →
      (parseJSONObject pt raw).level = "") ∧
    (∀ r, alistLookup raw "msg" = some (JValue.nonstr r) →
      (parseJSONObject pt raw).message = "") ∧
    (∀ r, alistLookup raw "span" = some (JValue.nonstr r) →
      (parseJSONObject pt raw).span = "") ∧
    (∀ r, alistLookup raw "parent" = some (JValue.nonstr r) →
      (parseJSONObject pt raw).parent = "") ∧
    (∀ k, knownKey k = true → alistLookup (parseJSONObject pt raw).attrs k = none) := by
  refine ⟨by unfold parseJSONLine; rw [hdec], ?_, ?_, ?_, ?_, ?_, ?_⟩
  · intro r h
    simp [parseJSONObject, h]
  · intro r h
    simp [parseJSONObject, h]
  · intro r h
    simp [parseJSONObject, h]
  · intro r h
    simp [parseJSONObject, h]
  · intro r h
    simp [parseJSONObject, h]
  · intro k hk
    show alistLookup ((raw.filter (fun kv => !(knownKey kv.1))).map
      (fun kv => (kv.1, renderJ kv.2))) k = none
    exact attrs_lookup_none_of_known k hk raw

/-- Witness for C10 at the concrete decoded object `c10raw`. -/
theorem C10_json_nonstring_reserved_witness :
    parseJSONLine ptNone jdecC10 "z" = Except.ok (parseJSONObject ptNone c10raw) ∧
    (parseJSONObject ptNone c10raw).time = 0 ∧
    (parseJSONObject ptNone c10raw).level = "" ∧
    (parseJSONObject ptNone c10raw).message = "" ∧
    (parseJSONObject ptNone c10raw).span = "" ∧
    (parseJSONObject ptNone c10raw).parent = "" ∧
    alistLookup (parseJSONObject ptNone c10raw).attrs "level" = none := by
  have h := C10_json_nonstring_reserved ptNone jdecC10 "z" c10raw rfl
  exact ⟨h.1, h.2.1 "1" rfl, h.2.2.1 "5" rfl, h.2.2.2.1 "2" rfl,
    h.2.2.2.2.1 "3" rfl, h.2.2.2.2.2.1 "4" rfl, h.2.2.2.2.2.2 "level" rfl⟩

/-- Counterexample to C3 as stated: on `c3cexEntries` the built tree names
span `X` after the LAST start marker, and keeps the 8-byte message
`" started"` verbatim, while the claim (first marker wins, suffix always
stripped) predicts `"foo"`. -/
theorem C3_counterexample :
    nameOfT (BuildTree c3cexEntries ["X"]) "X" = " started" ∧
    claimFirstStartName c3cexEntries "X" = "foo" ∧
    ¬ nameOfT (BuildTree c3cexEntries ["X"]) "X" = claimFirstStartName c3cexEntries "X" := by
  decide

theorem amendedStripName_eq_extract (msg : String) :
    amendedStripName msg = extractSpanName msg := by
  unfold amendedStripName extractSpanName
  by_cases h1 : msg.data.length ≤ 8
  · have hn : ¬ (8 < msg.data.length ∧
        msg.data.drop (msg.data.length - 8) = " started".data) :=
      fun hc => absurd hc.1 (by omega)
    rw [if_neg hn, if_pos h1]
  · have h2 : 8 < msg.data.length := by omega
    by_cases hs : msg.data.drop (msg.data.length - 8) = " started".data
    · rw [if_pos ⟨h2, hs⟩, if_neg h1, if_pos hs]
    · rw [if_neg (fun hc => hs hc.2), if_neg h1, if_neg hs]

/-- C3 (amended): in the built tree a span's name is set from every
start-marker entry — the last start marker wins, a later marker
overwriting an earlier name — and the derived name is the marker's message
with the trailing `" started"` stripped when the message is strictly
longer than 8 bytes, verbatim otherwise (both the bare `"started"` and the
8-byte `" started"` yield themselves). -/
theorem C3_name_last_start_marker (es : List Entry) (ord : List String) (s : String)
    (sp : Span) (hl : alistLookup (BuildTree es ord).spans s = some sp) :
    sp.name =
      (match (es.filter (fun e => decide (e.span = s) && isStartedMessage e.message)).getLast? with
       | some e => amendedStripName e.message
       | none => "") := by
  have hmem : s ∈ alistKeys (BuildTree es ord).spans := by
    rw [← alistLookup_isSome_iff_mem, hl]
    rfl
  have hs : ¬ s = "" := ((BuildTree_keys_mem es ord s).mp hmem).1
  have hname := BuildTree_nameOf es ord s hs
  unfold nameOfM at hname
  rw [hl] at hname
  simp only at hname
  rw [hname]
  cases (es.filter (fun e => decide (e.span = s) && isStartedMessage e.message)).getLast? with
  | none => rfl
  | some e =>
    simp only
    rw [amendedStripName_eq_extract]

/-- Witness for the amended C3 on a concrete one-entry list. -/
theorem C3_name_last_start_marker_witness :
    nameOfT (BuildTree c3wEntries ["W"]) "W" = "boot" := by
  cases hl : alistLookup (BuildTree c3wEntries ["W"]).spans "W" with
  | none => exact absurd hl (by decide)
  | some sp =>
    have hthm := C3_name_last_start_marker c3wEntries ["W"] "W" sp hl
    unfold nameOfT
    rw [hl]
    simp only
    rw [hthm]
    decide

/-- Counterexample to C4 as stated: the entry `span=X parent=X` DOES make
`X` a child of itself — pass 2 resolves the parent lookup to the span's
own record and appends the id to its own children. -/
theorem C4_counterexample :
    childrenOfT (BuildTree c4cexEntries ["X"]) "X" = ["X"] ∧
    "X" ∈ childrenOfT (BuildTree c4cexEntries ["X"]) "X" := by
  decide

/-- C4 (amended): in the built tree a span's children list contains the
span's own id only when that span's parent field equals its own id; in
particular, for any span whose parent differs from its id, the children
list never contains the span's own id. -/
theorem C4_no_self_child_unless_self_parent (es : List Entry) (ord : List String)
    (s : String) (sp : Span)
    (hl : alistLookup (BuildTree es ord).spans s = some sp)
    (hs : s ∈ sp.children) : sp.parent = s := by
  have hch : s ∈ childrenOfM (BuildTree es ord).spans s := by
    unfold childrenOfM
    rw [hl]
    exact hs
  have := BuildTree_childrenOK es ord s s hch
  unfold parentOfM at this
  rw [hl] at this
  exact this

/-- Witness for the amended C4: on a concrete self-parenting input the
span registered under `Y` that contains itself among its children indeed
has parent field `Y`. -/
theorem C4_no_self_child_unless_self_parent_witness :
    parentOfT (BuildTree c4wEntries ["Y"]) "Y" = "Y" := by
  cases hl : alistLookup (BuildTree c4wEntries ["Y"]).spans "Y" with
  | none => exact absurd hl (by decide)
  | some sp =>
    have hchildren : sp.children = ["Y"] := by
      have hc : childrenOfT (BuildTree c4wEntries ["Y"]) "Y" = ["Y"] := by decide
      unfold childrenOfT at hc
      rw [hl] at hc
      exact hc
    have hthm := C4_no_self_child_unless_self_parent c4wEntries ["Y"] "Y" sp hl
      (by rw [hchildren]; exact List.mem_singleton.mpr rfl)
    unfold parentOfT
    rw [hl]
    exact hthm

/-- Counterexample to C6 as stated, in two parts.  On `c6cexEntriesA` span
`b` carries the absent-value sentinel (start time 0) yet sorts AFTER span
`a`, whose start time −5 precedes the sentinel — the sentinel is not
ordered as the earliest possible value.  On `c6cexEntriesB` spans `x` and
`y` tie on start time and were discovered in the order `x`, `y` (the key
order of pass 1), yet under the admissible map-iteration order `["y","x"]`
(Go randomizes map iteration) the roots come out `["y","x"]` — the sort is
not stable with respect to discovery order. -/
theorem C6_counterexample :
    (BuildTree c6cexEntriesA ["a", "b"]).roots = ["a", "b"] ∧
    timeOf (BuildTree c6cexEntriesA ["a", "b"]).spans "b" = 0 ∧
    timeOf (BuildTree c6cexEntriesA ["a", "b"]).spans "a" = -5 ∧
    ¬ (BuildTree c6cexEntriesA ["a", "b"]).roots = ["b", "a"] ∧
    alistKeys (pass1 c6cexEntriesB) = ["x", "y"] ∧
    (["y", "x"] : List String).Perm (alistKeys (pass1 c6cexEntriesB)) ∧
    timeOf (BuildTree c6cexEntriesB ["y", "x"]).spans "x" =
      timeOf (BuildTree c6cexEntriesB ["y", "x"]).spans "y" ∧
    (BuildTree c6cexEntriesB ["y", "x"]).roots = ["y", "x"] ∧
    ¬ (BuildTree c6cexEntriesB ["y", "x"]).roots = ["x", "y"] := by
  decide

/-- C6 (amended): for every entry list and admissible map-iteration order,
the roots of the built tree are sorted ascending by start time — the
absent sentinel being the zero time value, which orders before positive
timestamps but after negative ones — and every span's children list is
likewise sorted; tie order follows the (randomized) map iteration order,
so no stability with respect to discovery order is guaranteed. -/
theorem C6_sorted_roots_children (es : List Entry) (ord : List String)
    (h : ord.Perm (alistKeys (pass1 es))) :
    (BuildTree es ord).roots.Pairwise
      (fun a b => timeOf (BuildTree es ord).spans a ≤ timeOf (BuildTree es ord).spans b) ∧
    ∀ kv ∈ (BuildTree es ord).spans, kv.2.children.Pairwise
      (fun a b => timeOf (BuildTree es ord).spans a ≤ timeOf (BuildTree es ord).spans b) := by
  by_cases hemp : es.isEmpty
  · have hBT : BuildTree es ord = { roots := [], spans := [] } := by
      unfold BuildTree
      rw [if_pos hemp]
    rw [hBT]
    exact ⟨List.Pairwise.nil, by intro kv hkv; simp at hkv⟩
  · have hBT : BuildTree es ord = sortByStartTime (pass2 (pass1 es) ord) := by
      unfold BuildTree
      rw [if_neg hemp]
    have htot : ∀ a b : String,
        (fun a b => decide (timeOf (pass2 (pass1 es) ord).spans a ≤
          timeOf (pass2 (pass1 es) ord).spans b)) a b = true ∨
        (fun a b => decide (timeOf (pass2 (pass1 es) ord).spans a ≤
          timeOf (pass2 (pass1 es) ord).spans b)) b a = true := by
      intro a b
      rcases le_total (timeOf (pass2 (pass1 es) ord).spans a)
        (timeOf (pass2 (pass1 es) ord).spans b) with hh | hh
      · exact Or.inl (by simpa using hh)
      · exact Or.inr (by simpa using hh)
    have htrans : ∀ a b c : String,
        (fun a b => decide (timeOf (pass2 (pass1 es) ord).spans a ≤
          timeOf (pass2 (pass1 es) ord).spans b)) a b = true →
        (fun a b => decide (timeOf (pass2 (pass1 es) ord).spans a ≤
          timeOf (pass2 (pass1 es) ord).spans b)) b c = true →
        (fun a b => decide (timeOf (pass2 (pass1 es) ord).spans a ≤
          timeOf (pass2 (pass1 es) ord).spans b)) a c = true := by
      intro a b c h1 h2
      simp at h1 h2 ⊢
      exact le_trans h1 h2
    have htimeEq : ∀ x, timeOf (sortByStartTime (pass2 (pass1 es) ord)).spans x =
        timeOf (pass2 (pass1 es) ord).spans x :=
      fun x => scrubEq_timeOf (sortByStartTime_scrubEq (pass2 (pass1 es) ord)) x
    rw [hBT]
    constructor
    · rw [sortByStartTime_roots]
      refine (insertionSortB_pairwise _ htot htrans (pass2 (pass1 es) ord).roots).imp ?_
      intro a b hab
      rw [htimeEq a, htimeEq b]
      simpa using hab
    · intro kv hkv
      rw [sortByStartTime_spans, List.mem_map] at hkv
      obtain ⟨kv0, hkv0, rfl⟩ := hkv
      show (sortChild _ kv0.2).children.Pairwise _
      unfold sortChild
      split
      · refine (insertionSortB_pairwise _ htot htrans kv0.2.children).imp ?_
        intro a b hab
        rw [htimeEq a, htimeEq b]
        simpa using hab
      · rename_i hlen
        cases hc : kv0.2.children with
        | nil => exact List.Pairwise.nil
        | cons x l =>
          cases l with
          | nil => exact List.pairwise_singleton _ _
          | cons y l2 =>
            exfalso
            rw [hc] at hlen
            simp at hlen

/-- Witness for the amended C6 at a concrete entry list and iteration
order (the tie-breaking instance of the counterexample). -/
theorem C6_sorted_roots_children_witness :
    (BuildTree c6cexEntriesB ["y", "x"]).roots.Pairwise
      (fun a b => timeOf (BuildTree c6cexEntriesB ["y", "x"]).spans a ≤
        timeOf (BuildTree c6cexEntriesB ["y", "x"]).spans b) ∧
    ∀ kv ∈ (BuildTree c6cexEntriesB ["y", "x"]).spans, kv.2.children.Pairwise
      (fun a b => timeOf (BuildTree c6cexEntriesB ["y", "x"]).spans a ≤
        timeOf (BuildTree c6cexEntriesB ["y", "x"]).spans b) :=
  C6_sorted_roots_children c6cexEntriesB ["y", "x"] (by decide)

/-- Counterexample to C5 as stated: on the self-parenting input the span
`X` is not a root, sits only in its OWN children list (so it appears in no
root list and in no other span's children), and following parent links
from `X` loops on `X` forever without reaching a root. -/
theorem C5_counterexample : ¬ claimForest (BuildTree c5cexEntries ["X"]) := by
  unfold claimForest
  decide

theorem filter_someAndEq_length (m : List (String × Span)) (s : String)
    (hsome : (alistLookup m s).isSome = true) :
    ∀ ord : List String,
      (ord.filter (fun id1 => (alistLookup m id1).isSome && decide (id1 = s))).length =
        ord.count s := by
  intro ord
  induction ord with
  | nil => simp
  | cons a l ih =>
    rw [List.filter_cons, List.count_cons]
    by_cases ha : a = s
    · subst ha
      simp only [hsome, decide_eq_true_eq]
      simp [ih]
    · have hfalse : ((alistLookup m a).isSome && decide (a = s)) = false := by
        simp [ha]
      simp only [hfalse]
      simp [ih, ha]

theorem BuildTree_root_mem (es : List Entry) (ord : List String) (s : String) :
    s ∈ (BuildTree es ord).roots ↔ s ∈ ord.filter (rootTest (pass1 es)) :=
  (BuildTree_roots_perm es ord).mem_iff

theorem BuildTree_nonroot_parent_mem (es : List Entry) (ord : List String)
    (h : ord.Perm (alistKeys (pass1 es))) (x : String)
    (hx : x ∈ alistKeys (BuildTree es ord).spans)
    (hnr : ¬ x ∈ (BuildTree es ord).roots) :
    parentOfT (BuildTree es ord) x ∈ alistKeys (BuildTree es ord).spans := by
  rw [BuildTree_keys] at hx ⊢
  have hxord : x ∈ ord := h.mem_iff.mpr hx
  have htest : ¬ rootTest (pass1 es) x = true := by
    intro htest
    exact hnr ((BuildTree_root_mem es ord x).mpr (List.mem_filter.mpr ⟨hxord, htest⟩))
  cases hl : alistLookup (pass1 es) x with
  | none =>
    exact absurd ((alistLookup_isSome_iff_mem (pass1 es) x).mpr hx) (by simp [hl])
  | some sp =>
    unfold rootTest at htest
    rw [hl] at htest
    simp only [Bool.or_eq_true, decide_eq_true_eq, Option.isNone_iff_eq_none] at htest
    push_neg at htest
    have hpar : parentOfT (BuildTree es ord) x = sp.parent := by
      show parentOfM (BuildTree es ord).spans x = sp.parent
      rw [scrubEq_parentOf (BuildTree_scrubEq es ord) x]
      unfold parentOfM
      rw [hl]
    rw [hpar]
    rw [← alistLookup_isSome_iff_mem]
    cases hp : alistLookup (pass1 es) sp.parent with
    | none => exact absurd hp htest.2
    | some _ => rfl

/-- C5 (amended): in the built tree every span id appears in exactly one
place — in the roots list or in exactly one span's children list (its own
list only in the self-parenting case) — and following parent links from
any span either reaches a root within `|spans|` steps or revisits a span
id within `|spans|` steps (a parent-link cycle, which the construction
does not resolve). -/
theorem C5_span_placement_and_chains (es : List Entry) (ord : List String)
    (h : ord.Perm (alistKeys (pass1 es))) :
    (∀ s ∈ alistKeys (BuildTree es ord).spans, occCount (BuildTree es ord) s = 1) ∧
    (∀ s ∈ alistKeys (BuildTree es ord).spans,
      s ∈ (BuildTree es ord).roots ∨
      (∃ k ∈ List.range ((BuildTree es ord).spans.length + 1),
        chainF (BuildTree es ord) s k ∈ (BuildTree es ord).roots) ∨
      (∃ i ∈ List.range ((BuildTree es ord).spans.length + 1),
        ∃ j ∈ List.range ((BuildTree es ord).spans.length + 1),
          i < j ∧ chainF (BuildTree es ord) s i = chainF (BuildTree es ord) s j)) := by
  constructor
  · intro s hs
    by_cases hemp : es.isEmpty
    · exfalso
      rw [BuildTree_keys] at hs
      have : es = [] := List.isEmpty_iff.mp hemp
      subst this
      simp [pass1, alistKeys] at hs
    · rw [BuildTree_occCount es ord s hemp]
      rw [BuildTree_keys] at hs
      rw [filter_someAndEq_length (pass1 es) s
        ((alistLookup_isSome_iff_mem (pass1 es) s).mpr hs) ord]
      rw [h.count_eq s]
      exact List.count_eq_one_of_mem (pass1_keys_nodup es) hs
  · intro s hs
    by_cases hroot : s ∈ (BuildTree es ord).roots
    · exact Or.inl hroot
    · by_cases hall : ∀ k ∈ List.range ((BuildTree es ord).spans.length + 1),
          ¬ chainF (BuildTree es ord) s k ∈ (BuildTree es ord).roots
      · refine Or.inr (Or.inr ?_)
        have hkeylen : (alistKeys (BuildTree es ord).spans).length =
            (BuildTree es ord).spans.length := by
          unfold alistKeys
          exact List.length_map _ _
        have hchainkeys : ∀ k, k ≤ (BuildTree es ord).spans.length →
            chainF (BuildTree es ord) s k ∈ alistKeys (BuildTree es ord).spans := by
          intro k
          induction k with
          | zero => intro; exact hs
          | succ k ih =>
            intro hk
            have hk1 : k ≤ (BuildTree es ord).spans.length := by omega
            have hmem := ih hk1
            have hnr := hall k (by rw [List.mem_range]; omega)
            show parentOfT (BuildTree es ord) (chainF (BuildTree es ord) s k) ∈ _
            exact BuildTree_nonroot_parent_mem es ord h _ hmem hnr
        have hcard : ((alistKeys (BuildTree es ord).spans).toFinset).card <
            (Finset.range ((BuildTree es ord).spans.length + 1)).card := by
          rw [Finset.card_range]
          calc ((alistKeys (BuildTree es ord).spans).toFinset).card
              ≤ (alistKeys (BuildTree es ord).spans).length := List.toFinset_card_le _
            _ = (BuildTree es ord).spans.length := hkeylen
            _ < (BuildTree es ord).spans.length + 1 := by omega
        have hmaps : ∀ k ∈ Finset.range ((BuildTree es ord).spans.length + 1),
            chainF (BuildTree es ord) s k ∈ (alistKeys (BuildTree es ord).spans).toFinset := by
          intro k hk
          rw [Finset.mem_range] at hk
          rw [List.mem_toFinset]
          exact hchainkeys k (by omega)
        obtain ⟨i, hi, j, hj, hij, heq⟩ :=
          Finset.exists_ne_map_eq_of_card_lt_of_maps_to hcard hmaps
        rw [Finset.mem_range] at hi hj
        rcases Nat.lt_or_ge i j with hlt | hge
        · exact ⟨i, by rw [List.mem_range]; omega, j, by rw [List.mem_range]; omega, hlt, heq⟩
        · have hlt2 : j < i := by omega
          exact ⟨j, by rw [List.mem_range]; omega, i, by rw [List.mem_range]; omega, hlt2,
            heq.symm⟩
      · push_neg at hall
        obtain ⟨k, hk, hkr⟩ := hall
        exact Or.inr (Or.inl ⟨k, hk, hkr⟩)

/-- Witness for the amended C5 on a concrete one-span input. -/
theorem C5_span_placement_and_chains_witness :
    occCount (BuildTree c5wEntries ["Z"]) "Z" = 1 ∧
    ("Z" ∈ (BuildTree c5wEntries ["Z"]).roots ∨
      (∃ k ∈ List.range ((BuildTree c5wEntries ["Z"]).spans.length + 1),
        chainF (BuildTree c5wEntries ["Z"]) "Z" k ∈ (BuildTree c5wEntries ["Z"]).roots) ∨
      (∃ i ∈ List.range ((BuildTree c5wEntries ["Z"]).spans.length + 1),
        ∃ j ∈ List.range ((BuildTree c5wEntries ["Z"]).spans.length + 1),
          i < j ∧ chainF (BuildTree c5wEntries ["Z"]) "Z" i =
            chainF (BuildTree c5wEntries ["Z"]) "Z" j)) :=
  ⟨(C5_span_placement_and_chains c5wEntries ["Z"] (by decide)).1 "Z" (by decide),
   (C5_span_placement_and_chains c5wEntries ["Z"] (by decide)).2 "Z" (by decide)⟩

end Drillog

